import Mathlib

/-!
Verification development for a subdomain-encoding reverse proxy.

The proxy encodes each proxied origin (`scheme://host[:port]`) into a base32
subdomain of a configured public host, decodes it back from the inbound `Host`
header, forwards requests upstream, and rewrites response headers and HTML.

Rust strings (`str`, `String`, `Vec<u8>`) are modelled as lists of byte values
(`List Nat`, each value < 256), matching Rust's UTF-8 byte representation.
All definitions are translated from the Rust source; the base32 codec is
translated from the `base32` crate (v0.5) that the source calls, and the
hyper/`http` URI parser is modelled on the URL shapes the proxy handles
(see `parseUri`).
-/

set_option maxRecDepth 100000

namespace GS

/-- Byte strings: Rust `str` / `String` / `Vec<u8>` as lists of byte values. -/
abbrev Bytes : Type := List Nat

/-- The bytes of the separator `"://"` (`:` `/` `/`). -/
def sepSS : Bytes := [58, 47, 47]

/-- The bytes of `"http"`. -/
def strHttp : Bytes := ['h', 't', 't', 'p'].map Char.toNat

/-- The bytes of `"https"`. -/
def strHttps : Bytes := ['h', 't', 't', 'p', 's'].map Char.toNat

/-- The bytes of `"https://"`, the fixed scheme prefix of `encode_url` output. -/
def httpsSS : Bytes := strHttps ++ sepSS

/-- `base32::Alphabet` from the base32 crate, as exposed by the repo's `Config`
(`AlphabetDef` in `main.rs`/`state.rs`). -/
inductive Alphabet where
  | Crockford : Alphabet
  | Rfc4648 (padding : Bool) : Alphabet
  | Rfc4648Lower (padding : Bool) : Alphabet
  | Rfc4648Hex (padding : Bool) : Alphabet
  | Rfc4648HexLower (padding : Bool) : Alphabet
  | Z : Alphabet
deriving DecidableEq

/-- Crockford base32 alphabet `0123456789ABCDEFGHJKMNPQRSTVWXYZ`. -/
def crockfordChars : Bytes :=
  ['0', '1', '2', '3', '4', '5', '6', '7', '8', '9', 'A', 'B', 'C', 'D', 'E',
   'F', 'G', 'H', 'J', 'K', 'M', 'N', 'P', 'Q', 'R', 'S', 'T', 'V', 'W', 'X',
   'Y', 'Z'].map Char.toNat

/-- RFC 4648 base32 alphabet `ABCDEFGHIJKLMNOPQRSTUVWXYZ234567`. -/
def rfc4648Chars : Bytes :=
  ['A', 'B', 'C', 'D', 'E', 'F', 'G', 'H', 'I', 'J', 'K', 'L', 'M', 'N', 'O',
   'P', 'Q', 'R', 'S', 'T', 'U', 'V', 'W', 'X', 'Y', 'Z', '2', '3', '4', '5',
   '6', '7'].map Char.toNat

/-- Lowercase RFC 4648 base32 alphabet. -/
def rfc4648LowerChars : Bytes :=
  ['a', 'b', 'c', 'd', 'e', 'f', 'g', 'h', 'i', 'j', 'k', 'l', 'm', 'n', 'o',
   'p', 'q', 'r', 's', 't', 'u', 'v', 'w', 'x', 'y', 'z', '2', '3', '4', '5',
   '6', '7'].map Char.toNat

/-- RFC 4648 base32hex alphabet `0123456789ABCDEFGHIJKLMNOPQRSTUV`. -/
def rfc4648HexChars : Bytes :=
  ['0', '1', '2', '3', '4', '5', '6', '7', '8', '9', 'A', 'B', 'C', 'D', 'E',
   'F', 'G', 'H', 'I', 'J', 'K', 'L', 'M', 'N', 'O', 'P', 'Q', 'R', 'S', 'T',
   'U', 'V'].map Char.toNat

/-- Lowercase RFC 4648 base32hex alphabet (digits, then `a`–`v`). -/
def rfc4648HexLowerChars : Bytes :=
  (['0', '1', '2', '3', '4', '5', '6', '7', '8', '9'].map Char.toNat) ++
  (['a', 'b', 'c', 'd', 'e', 'f', 'g', 'h', 'i', 'j', 'k', 'l', 'm', 'n', 'o',
    'p', 'q', 'r', 's', 't', 'u', 'v'].map Char.toNat)

/-- z-base-32 alphabet `ybndrfg8ejkmcpqxot1uwisza345h769`. -/
def zChars : Bytes :=
  ['y', 'b', 'n', 'd', 'r', 'f', 'g', '8', 'e', 'j', 'k', 'm', 'c', 'p', 'q',
   'x', 'o', 't', '1', 'u', 'w', 'i', 's', 'z', 'a', '3', '4', '5', 'h', '7',
   '6', '9'].map Char.toNat

/-- The 32-character encoding table selected for an alphabet (base32 crate). -/
def encTable : Alphabet → Bytes
  | .Crockford => crockfordChars
  | .Rfc4648 _ => rfc4648Chars
  | .Rfc4648Lower _ => rfc4648LowerChars
  | .Rfc4648Hex _ => rfc4648HexChars
  | .Rfc4648HexLower _ => rfc4648HexLowerChars
  | .Z => zChars

/-- Whether `base32::encode` emits `=` padding for this alphabet. -/
def padFlag : Alphabet → Bool
  | .Rfc4648 p => p
  | .Rfc4648Lower p => p
  | .Rfc4648Hex p => p
  | .Rfc4648HexLower p => p
  | _ => false

/-- One 5-byte chunk of `base32::encode`: the eight 5-bit symbol values.
Missing trailing bytes of the last chunk are zero (the crate zero-fills its
5-byte buffer). Each line is the crate's mask-and-shift expression; the
operands are u8 values, and none of these expressions can exceed 255, so no
wrap-around reduction is needed on the encode side. -/
def encGroup (b0 b1 b2 b3 b4 : Nat) : List Nat :=
  [(b0 &&& 0xF8) >>> 3,
   ((b0 &&& 0x07) <<< 2) ||| ((b1 &&& 0xC0) >>> 6),
   (b1 &&& 0x3E) >>> 1,
   ((b1 &&& 0x01) <<< 4) ||| ((b2 &&& 0xF0) >>> 4),
   ((b2 &&& 0x0F) <<< 1) ||| ((b3 &&& 0x80) >>> 7),
   (b3 &&& 0x7C) >>> 2,
   ((b3 &&& 0x03) <<< 3) ||| ((b4 &&& 0xE0) >>> 5),
   b4 &&& 0x1F]

/-- How many of the 8 symbols of the final chunk are kept for a final chunk of
`r` input bytes: `8 - num_extra` with `num_extra = 8 - (r * 8 + 4) / 5` from
the crate's truncation step. -/
def symCount (r : Nat) : Nat := (r * 8 + 4) / 5

/-- The 5-bit symbol values of `base32::encode`: the input is processed in
chunks of 5 bytes; the final partial chunk is zero-filled and only
`symCount r` of its 8 symbols are kept (the crate truncates the same number
of symbols from the end of the whole output, which is equivalent because only
the last chunk is partial). -/
def encVals : List Nat → List Nat
  | [] => []
  | [b0] => (encGroup b0 0 0 0 0).take 2
  | [b0, b1] => (encGroup b0 b1 0 0 0).take 4
  | [b0, b1, b2] => (encGroup b0 b1 b2 0 0).take 5
  | [b0, b1, b2, b3] => (encGroup b0 b1 b2 b3 0).take 7
  | b0 :: b1 :: b2 :: b3 :: b4 :: rest => encGroup b0 b1 b2 b3 b4 ++ encVals rest

/-- `base32::encode`: map the 5-bit symbol values through the alphabet table;
with `padding` enabled and a partial final chunk, the truncated symbol
positions are emitted as `=` (byte 61) instead of being dropped. -/
def b32encode (a : Alphabet) (data : Bytes) : Bytes :=
  let syms := (encVals data).map fun v => (encTable a).getD v 0
  if padFlag a ∧ data.length % 5 ≠ 0 then
    syms ++ List.replicate (8 - symCount (data.length % 5)) 61
  else syms

/-- Crockford inverse table of the base32 crate, indexed by
`uppercase(byte) - 48` (`'0'`), with `none` for the crate's `-1` entries.
Maps `O` to 0 and `I`/`L` to 1; `=` (index 13) decodes as 0. -/
def crockfordInv : List (Option Nat) :=
  [some 0, some 1, some 2, some 3, some 4, some 5, some 6, some 7, some 8,
   some 9, none, none, none, some 0, none, none, none, some 10, some 11,
   some 12, some 13, some 14, some 15, some 16, some 17, some 1, some 18,
   some 19, some 1, some 20, some 21, some 0, some 22, some 23, some 24,
   some 25, some 26, none, some 27, some 28, some 29, some 30, some 31]

/-- RFC 4648 inverse table (shared by the upper- and lowercase variants since
lookup upcases first); `=` (index 13) decodes as 0. -/
def rfc4648Inv : List (Option Nat) :=
  [none, none, some 26, some 27, some 28, some 29, some 30, some 31, none,
   none, none, none, none, some 0, none, none, none, some 0, some 1, some 2,
   some 3, some 4, some 5, some 6, some 7, some 8, some 9, some 10, some 11,
   some 12, some 13, some 14, some 15, some 16, some 17, some 18, some 19,
   some 20, some 21, some 22, some 23, some 24, some 25]

/-- RFC 4648 base32hex inverse table; `=` (index 13) decodes as 0. -/
def rfc4648HexInv : List (Option Nat) :=
  [some 0, some 1, some 2, some 3, some 4, some 5, some 6, some 7, some 8,
   some 9, none, none, none, some 0, none, none, none, some 10, some 11,
   some 12, some 13, some 14, some 15, some 16, some 17, some 18, some 19,
   some 20, some 21, some 22, some 23, some 24, some 25, some 26, some 27,
   some 28, some 29, some 30, some 31, none, none, none, none]

/-- z-base-32 inverse table (indexed by upcased byte - 48);
`=` (index 13) decodes as 0. -/
def zInv : List (Option Nat) :=
  [none, some 18, none, some 25, some 26, some 27, some 30, some 29, some 7,
   some 31, none, none, none, some 0, none, none, none, some 24, some 1,
   some 12, some 3, some 8, some 5, some 6, some 28, some 21, some 9, some 10,
   none, some 11, some 2, some 16, some 13, some 14, some 4, some 22, some 17,
   some 19, none, some 20, some 15, some 0, some 23]

/-- The inverse table selected for an alphabet (base32 crate `decode`). -/
def invTable : Alphabet → List (Option Nat)
  | .Crockford => crockfordInv
  | .Rfc4648 _ => rfc4648Inv
  | .Rfc4648Lower _ => rfc4648Inv
  | .Rfc4648Hex _ => rfc4648HexInv
  | .Rfc4648HexLower _ => rfc4648HexInv
  | .Z => zInv

/-- `byte.to_ascii_uppercase()`. -/
def toUpperB (c : Nat) : Nat := if 97 ≤ c ∧ c ≤ 122 then c - 32 else c

/-- The crate's symbol lookup
`alphabet.get(c.to_ascii_uppercase().wrapping_sub(b'0') as usize)`:
the wrapping u8 subtraction is `(x + 256 - 48) % 256`; an out-of-range index
or a `-1` table entry makes the decode fail. -/
def lookupSym (a : Alphabet) (c : Nat) : Option Nat :=
  match (invTable a).get? ((toUpperB c + 256 - 48) % 256) with
  | some (some v) => some v
  | _ => none

/-- One 8-symbol chunk of `base32::decode`: five output bytes from the 5-bit
symbol values (missing symbols of a final partial chunk are zero, matching the
crate's zero-filled 8-byte buffer). u8 arithmetic is modelled with an explicit
`% 256` on every operand. -/
def decGroup8 (v0 v1 v2 v3 v4 v5 v6 v7 : Nat) : List Nat :=
  [((v0 <<< 3) % 256) ||| ((v1 >>> 2) % 256),
   ((v1 <<< 6) % 256) ||| ((v2 <<< 1) % 256) ||| ((v3 >>> 4) % 256),
   ((v3 <<< 4) % 256) ||| ((v4 >>> 1) % 256),
   ((v4 <<< 7) % 256) ||| ((v5 <<< 2) % 256) ||| ((v6 >>> 3) % 256),
   ((v6 <<< 5) % 256) ||| (v7 % 256)]

/-- The concatenated chunk outputs of `base32::decode` (before the final
truncation): chunks of 8 symbol values, the final partial chunk zero-filled. -/
def decVals : List Nat → List Nat
  | [] => []
  | v0 :: v1 :: v2 :: v3 :: v4 :: v5 :: v6 :: v7 :: rest =>
      decGroup8 v0 v1 v2 v3 v4 v5 v6 v7 ++ decVals rest
  | c =>
      decGroup8 (c.getD 0 0) (c.getD 1 0) (c.getD 2 0) (c.getD 3 0) (c.getD 4 0)
        (c.getD 5 0) (c.getD 6 0) (c.getD 7 0)

/-- The number of trailing `=` bytes the crate's decode treats as padding:
its loop inspects at most the last `min 6 len` bytes and stops at the first
byte that is not `=`. -/
def trailingEqCount (s : Bytes) : Nat :=
  min ((s.reverse.takeWhile fun c => c == 61).length) (min 6 s.length)

/-- `base32::decode`: fails unless the input is ASCII; looks every byte up in
the inverse table (the crate does this chunk by chunk with an early return,
which agrees with a whole-input `mapM`); truncates the chunk output to
`unpadded_len * 5 / 8` bytes. -/
def b32decode (a : Alphabet) (s : Bytes) : Option Bytes :=
  if ¬ s.all fun c => c < 128 then none else
  match s.mapM (lookupSym a) with
  | none => none
  | some vals => some ((decVals vals).take ((s.length - trailingEqCount s) * 5 / 8))

/-- Rust `str::splitn(2, pat)` viewed as "split at the first occurrence of
`pat`": `some (before, after)` when `pat` occurs, `none` otherwise (in which
case the iterator yields the whole string as its only part). Only used with
non-empty patterns. -/
def splitOnce (pat : Bytes) : Bytes → Option (Bytes × Bytes)
  | [] => none
  | c :: rest =>
    if pat.isPrefixOf (c :: rest) then some ([], (c :: rest).drop pat.length)
    else match splitOnce pat rest with
      | some (a, b) => some (c :: a, b)
      | none => none

/-- Rust `str::contains(pat)` for a substring pattern. -/
def containsSub (pat s : Bytes) : Bool := (splitOnce pat s).isSome

/-- Rust `str::strip_suffix`. -/
def stripSuffix (s sfx : Bytes) : Option Bytes :=
  if sfx.isSuffixOf s then some (s.take (s.length - sfx.length)) else none

/-- Rust `str::rfind(char)`: byte index of the last occurrence. -/
def rfind (c : Nat) : Bytes → Option Nat
  | [] => none
  | b :: rest =>
    match rfind c rest with
    | some i => some (i + 1)
    | none => if b == c then some 0 else none

/-- Rust `str::trim_end_matches('.')`: drop every trailing `.` (byte 46). -/
def trimEndDots (s : Bytes) : Bytes := (s.reverse.dropWhile fun b => b == 46).reverse

/-- `bytes.iter().zip(key.iter().cycle()).map(|(b, k)| b ^ k)`: with an empty
key, `cycle()` yields nothing and the zip is empty; otherwise byte `i` is
XORed with `key[i % key.len()]`. `i` is the absolute index accumulator. -/
def xorCycleGo (key : Bytes) : Nat → Bytes → Bytes
  | _, [] => []
  | i, b :: rest => (b ^^^ key.getD (i % key.length) 0) :: xorCycleGo key (i + 1) rest

/-- The XOR masking step of the codec (see `xorCycleGo`). -/
def xorCycle (key bytes : Bytes) : Bytes :=
  if key.isEmpty then [] else xorCycleGo key 0 bytes

/-- Whether a byte is an ASCII continuation byte `10xxxxxx`. -/
def contB (c : Nat) : Bool := 128 ≤ c ∧ c ≤ 191

/-- RFC 3629 UTF-8 validity of a byte sequence (what Rust's
`String::from_utf8` checks), processed with a fuel counter equal to the
input length; each step consumes at least one byte, so the fuel never runs
out on the initial call. -/
def validUtf8Go : Nat → Bytes → Bool
  | _, [] => true
  | 0, _ :: _ => false
  | fuel + 1, c :: rest =>
    if c ≤ 127 then validUtf8Go fuel rest
    else if 194 ≤ c ∧ c ≤ 223 then
      match rest with
      | c1 :: rest2 => contB c1 && validUtf8Go fuel rest2
      | [] => false
    else if c = 224 then
      match rest with
      | c1 :: c2 :: rest3 => (160 ≤ c1 && c1 ≤ 191) && contB c2 && validUtf8Go fuel rest3
      | _ => false
    else if (225 ≤ c ∧ c ≤ 236) ∨ c = 238 ∨ c = 239 then
      match rest with
      | c1 :: c2 :: rest3 => contB c1 && contB c2 && validUtf8Go fuel rest3
      | _ => false
    else if c = 237 then
      match rest with
      | c1 :: c2 :: rest3 => (128 ≤ c1 && c1 ≤ 159) && contB c2 && validUtf8Go fuel rest3
      | _ => false
    else if c = 240 then
      match rest with
      | c1 :: c2 :: c3 :: rest4 =>
          (144 ≤ c1 && c1 ≤ 191) && contB c2 && contB c3 && validUtf8Go fuel rest4
      | _ => false
    else if 241 ≤ c ∧ c ≤ 243 then
      match rest with
      | c1 :: c2 :: c3 :: rest4 => contB c1 && contB c2 && contB c3 && validUtf8Go fuel rest4
      | _ => false
    else if c = 244 then
      match rest with
      | c1 :: c2 :: c3 :: rest4 =>
          (128 ≤ c1 && c1 ≤ 143) && contB c2 && contB c3 && validUtf8Go fuel rest4
      | _ => false
    else false

/-- RFC 3629 UTF-8 validity (see `validUtf8Go`). -/
def validUtf8 (s : Bytes) : Bool := validUtf8Go s.length s

/-- Rust `String::from_utf8` in the byte-list string model: succeeds exactly
on valid UTF-8 and returns the same bytes. -/
def fromUtf8 (l : Bytes) : Option Bytes := if validUtf8 l then some l else none

/-- Whether a byte is an ASCII digit. -/
def isDigitB (c : Nat) : Bool := 48 ≤ c ∧ c ≤ 57

/-- Rust `u16::from_str`: an optional leading `+` (byte 43), then one or more
ASCII digits, value at most 65535 (Rust errors on overflow during the fold;
over `Nat` the final bound check is equivalent). -/
def parseU16 (s : Bytes) : Option Nat :=
  let digits := match s with
    | c :: rest => if c = 43 then rest else c :: rest
    | [] => []
  if digits = [] ∨ ¬ digits.all isDigitB then none
  else
    let v := digits.foldl (fun a c => a * 10 + (c - 48)) 0
    if v ≤ 65535 then some v else none

/-- The decimal digits of a natural number, as ASCII bytes
(Rust's `format!("{}", n)` for an unsigned integer). -/
def natDigits (n : Nat) : Bytes :=
  if h : n < 10 then [48 + n]
  else natDigits (n / 10) ++ [48 + n % 10]
decreasing_by exact Nat.div_lt_self (by omega) (by omega)

/-- `UrlEncodingAlgorithm` from `main.rs` / `state.rs`. -/
inductive UrlEncodingAlgorithm where
  | Base32 (alphabet : Alphabet) : UrlEncodingAlgorithm
  | Base32Xor (alphabet : Alphabet) (key : Bytes) : UrlEncodingAlgorithm
deriving DecidableEq

/-- The proxy configuration (`Config` in `main.rs` / `state.rs`); the listen
socket address is irrelevant to the claims and omitted. -/
structure Config where
  url_encoding_algorithm : UrlEncodingAlgorithm
  public_host : Bytes
deriving DecidableEq

/-- `Scheme` from `proxy/util.rs`. -/
inductive Scheme where
  | Http : Scheme
  | Https : Scheme
deriving DecidableEq

/-- `Origin` from `proxy/util.rs`; the port is a `u16` value. -/
structure Origin where
  scheme : Scheme
  host : Bytes
  port : Nat
deriving DecidableEq

/-- The error values a request-handling step can produce (`DecodeError`,
`InvalidHostError`, `InvalidOriginError` from `proxy/util.rs`, plus the
`FromUtf8Error` propagated by the `?` on `String::from_utf8`). -/
inductive ProxyErr where
  | decodeError : ProxyErr
  | invalidHost : ProxyErr
  | invalidOrigin : ProxyErr
  | utf8Error : ProxyErr
deriving DecidableEq

/-- The scheme test of `parse_origin`: `Some("http")` / `Some("https")`. -/
def schemeOfBytes (s : Bytes) : Option Scheme :=
  if s = strHttp then some .Http
  else if s = strHttps then some .Https
  else none

/-- The default port `parse_origin` assigns when none is given. -/
def defaultPort : Scheme → Nat
  | .Http => 80
  | .Https => 443

/-- `parse_origin` from `proxy/util.rs`: reject the empty string; split once
on `"://"` (when the separator is absent the first `splitn` part is the whole
string and the second is `None`); accept scheme `http`/`https`; split the
remainder once on `:`; reject a host containing `/` or `:` (emptiness is NOT
checked); parse the port with `u16::from_str` when present, else default by
scheme. Every failure is `InvalidOriginError`. -/
def parse_origin (origin : Bytes) : Except ProxyErr Origin :=
  if origin = [] then .error .invalidOrigin else
  let p1 := splitOnce sepSS origin
  let schemePart := match p1 with
    | some (a, _) => a
    | none => origin
  match schemeOfBytes schemePart with
  | none => .error .invalidOrigin
  | some scheme =>
    match p1 with
    | none => .error .invalidOrigin
    | some (_, rest) =>
      let p2 := splitOnce [58] rest
      let host := match p2 with
        | some (h, _) => h
        | none => rest
      if 47 ∈ host ∨ 58 ∈ host then .error .invalidOrigin else
      match p2 with
      | some (_, portPart) =>
        match parseU16 portPart with
        | none => .error .invalidOrigin
        | some port => .ok ⟨scheme, host, port⟩
      | none => .ok ⟨scheme, host, defaultPort scheme⟩

/-- `proxied_origin` from `proxy/util.rs`: cut the origin at the last `:`
(dropping a `:port` suffix of the `Host` header); strip `public_host` as a
suffix (else `InvalidHostError`); trim trailing `.`; base32-decode the
remaining label (else `DecodeError`); under `Base32Xor` unmask with the
repeating key; UTF-8-decode and `parse_origin`. -/
def proxied_origin (config : Config) (origin : Bytes) : Except ProxyErr Origin :=
  let origin1 := match rfind 58 origin with
    | some i => origin.take i
    | none => origin
  match stripSuffix origin1 config.public_host with
  | none => .error .invalidHost
  | some stripped =>
    let label := trimEndDots stripped
    match config.url_encoding_algorithm with
    | .Base32 a =>
      match b32decode a label with
      | none => .error .decodeError
      | some bytes =>
        match fromUtf8 bytes with
        | none => .error .utf8Error
        | some s => parse_origin s
    | .Base32Xor a key =>
      match b32decode a label with
      | none => .error .decodeError
      | some bytes =>
        match fromUtf8 (xorCycle key bytes) with
        | none => .error .utf8Error
        | some s => parse_origin s

/-- `String::from(origin)` (the `From<Origin> for String` impl in
`proxy/util.rs`): `format!("{scheme}://{host}:{port}")` — the port is always
rendered explicitly. -/
def originToString (o : Origin) : Bytes :=
  match o.scheme with
  | .Http => strHttp ++ sepSS ++ o.host ++ (58 :: natDigits o.port)
  | .Https => strHttps ++ sepSS ++ o.host ++ (58 :: natDigits o.port)

/-- Whether a byte is an ASCII letter. -/
def isAlphaB (c : Nat) : Bool := (65 ≤ c ∧ c ≤ 90) ∨ (97 ≤ c ∧ c ≤ 122)

/-- Bytes legal in a URI scheme after the first letter: letters, digits,
`+` (43), `-` (45), `.` (46). -/
def isSchemeByte (c : Nat) : Bool := isAlphaB c ∨ isDigitB c ∨ c = 43 ∨ c = 45 ∨ c = 46

/-- Bytes of a DNS-style registered name: letters, digits, `-` (45), `.` (46). -/
def isHostByte (c : Nat) : Bool := isAlphaB c ∨ isDigitB c ∨ c = 45 ∨ c = 46

/-- Visible ASCII (no space, no controls): the bytes `http::Uri` accepts in
the path/query/fragment portion of the inputs modelled here. -/
def isPathByte (c : Nat) : Bool := 33 ≤ c ∧ c ≤ 126

/-- The port of a URI authority: one or more ASCII digits, a `u16` value
(no sign, unlike `u16::from_str`). -/
def parsePortDigits (s : Bytes) : Option Nat :=
  if s = [] ∨ ¬ s.all isDigitB then none
  else
    let v := s.foldl (fun a c => a * 10 + (c - 48)) 0
    if v ≤ 65535 then some v else none

/-- The components of a parsed URI that `encode_url` consumes:
`scheme_str()`, `authority().host()`, `authority().port_u16()` and `path()`. -/
structure UriParts where
  scheme : Bytes
  host : Bytes
  port : Option Nat
  path : Bytes
deriving DecidableEq

/-- The path component `uri.path()` returns: everything from the first
`/` (47) after the authority up to `?` (63) or `#` (35); `"/"` when empty
(hyper's `path()` yields `"/"` for a URI with no path). -/
def pathOf (after : Bytes) : Bytes :=
  if (after.takeWhile fun b => ¬ (b = 63 ∨ b = 35)) = [] then [47]
  else after.takeWhile fun b => ¬ (b = 63 ∨ b = 35)

/-- Model of `hyper::Uri::from_str` followed by the `scheme_str()` /
`authority()` extraction in `encode_url`, restricted to the URL shapes the
proxy handles: `scheme://host[:port][/path][?query][#fragment]` with a
DNS-style host. `none` covers both a parse error and an absent scheme or
authority (in all of which `encode_url` returns its input unchanged);
inputs outside this shape (userinfo, IP-literal hosts, percent-escapes in
the authority) are mapped to `none`. -/
def parseUri (url : Bytes) : Option UriParts :=
  match splitOnce sepSS url with
  | none => none
  | some (sch, rest) =>
    match sch with
    | [] => none
    | c :: _ =>
      if ¬ (isAlphaB c ∧ sch.all isSchemeByte) then none else
      let auth := rest.takeWhile fun b => ¬ (b = 47 ∨ b = 63 ∨ b = 35)
      let after := rest.drop auth.length
      if ¬ after.all isPathByte then none else
      match splitOnce [58] auth with
      | none =>
        if auth = [] ∨ ¬ auth.all isHostByte then none
        else some ⟨sch, auth, none, pathOf after⟩
      | some (h, p) =>
        if h = [] ∨ ¬ h.all isHostByte then none else
        match parsePortDigits p with
        | none => none
        | some n => some ⟨sch, h, some n, pathOf after⟩

/-- `encode_url` from `proxy/util.rs`: return the input unchanged when it
lacks `"://"`, fails to parse, or lacks a scheme or authority; otherwise form
`origin = scheme://host[:port]` (port rendered iff `port_u16()` is `Some`),
base32-encode it (XOR-masked first under `Base32Xor`) and return
`https://<encoded>.<public_host><path>`. -/
def encode_url (config : Config) (url : Bytes) : Bytes :=
  if ¬ containsSub sepSS url then url else
  match parseUri url with
  | none => url
  | some uri =>
    let portPart : Bytes := match uri.port with
      | some p => 58 :: natDigits p
      | none => []
    let origin := uri.scheme ++ sepSS ++ uri.host ++ portPart
    match config.url_encoding_algorithm with
    | .Base32 a =>
        httpsSS ++ b32encode a origin ++ [46] ++ config.public_host ++ uri.path
    | .Base32Xor a key =>
        httpsSS ++ b32encode a (xorCycle key origin) ++ [46] ++ config.public_host ++ uri.path

/-- The hostname of a URL: the part between `"://"` and the first `/` — the
value a client would send as the `Host` header when requesting the URL. -/
def hostnameOf (url : Bytes) : Bytes :=
  match splitOnce sepSS url with
  | none => []
  | some (_, rest) => rest.takeWhile fun b => b ≠ 47

/-- The bytes of `"api."`. -/
def apiDot : Bytes := ['a', 'p', 'i', '.'].map Char.toNat

/-- The hostname router (`lib.rs` / `main.rs`):
`host == format!("api.{}", state.config.public_host)` — `true` dispatches to
the control API, `false` to the proxy pipeline. -/
def routeIsApi (config : Config) (host : Bytes) : Bool :=
  host == apiDot ++ config.public_host

/-- A header as (name, value); names are in their lowercased canonical form,
as `http::HeaderName` stores them. -/
abbrev Header : Type := Bytes × Bytes

/-- The 16 security/isolation response header names stripped by the
forwarding engine (`proxy/service.rs`). -/
def strippedRespHeaders : List Bytes :=
  [['c','r','o','s','s','-','o','r','i','g','i','n','-','e','m','b','e','d','d','e','r','-','p','o','l','i','c','y'].map Char.toNat,
   ['c','r','o','s','s','-','o','r','i','g','i','n','-','o','p','e','n','e','r','-','p','o','l','i','c','y'].map Char.toNat,
   ['c','r','o','s','s','-','o','r','i','g','i','n','-','r','e','s','o','u','r','c','e','-','p','o','l','i','c','y'].map Char.toNat,
   ['c','o','n','t','e','n','t','-','s','e','c','u','r','i','t','y','-','p','o','l','i','c','y'].map Char.toNat,
   ['c','o','n','t','e','n','t','-','s','e','c','u','r','i','t','y','-','p','o','l','i','c','y','-','r','e','p','o','r','t','-','o','n','l','y'].map Char.toNat,
   ['e','x','p','e','c','t','-','c','t'].map Char.toNat,
   ['f','e','a','t','u','r','e','-','p','o','l','i','c','y'].map Char.toNat,
   ['o','r','i','g','i','n','-','i','s','o','l','a','t','i','o','n'].map Char.toNat,
   ['s','t','r','i','c','t','-','t','r','a','n','s','p','o','r','t','-','s','e','c','u','r','i','t','y'].map Char.toNat,
   ['u','p','g','r','a','d','e','-','i','n','s','e','c','u','r','e','-','r','e','q','u','e','s','t','s'].map Char.toNat,
   ['x','-','c','o','n','t','e','n','t','-','t','y','p','e','-','o','p','t','i','o','n','s'].map Char.toNat,
   ['x','-','d','o','w','n','l','o','a','d','-','o','p','t','i','o','n','s'].map Char.toNat,
   ['x','-','f','r','a','m','e','-','o','p','t','i','o','n','s'].map Char.toNat,
   ['x','-','p','e','r','m','i','t','t','e','d','-','c','r','o','s','s','-','d','o','m','a','i','n','-','p','o','l','i','c','i','e','s'].map Char.toNat,
   ['x','-','p','o','w','e','r','e','d','-','b','y'].map Char.toNat,
   ['x','-','x','s','s','-','p','r','o','t','e','c','t','i','o','n'].map Char.toNat]

/-- The canonical name of the `Location` header. -/
def locationName : Bytes := ['l','o','c','a','t','i','o','n'].map Char.toNat

/-- The canonical name of the `Content-Type` header. -/
def contentTypeName : Bytes := ['c','o','n','t','e','n','t','-','t','y','p','e'].map Char.toNat

/-- The canonical name of the `Content-Encoding` header. -/
def contentEncodingName : Bytes :=
  ['c','o','n','t','e','n','t','-','e','n','c','o','d','i','n','g'].map Char.toNat

/-- The canonical name of the `Transfer-Encoding` header. -/
def transferEncodingName : Bytes :=
  ['t','r','a','n','s','f','e','r','-','e','n','c','o','d','i','n','g'].map Char.toNat

/-- The bytes of `"text/html"`. -/
def textHtml : Bytes := ['t','e','x','t','/','h','t','m','l'].map Char.toNat

/-- The bytes `http::HeaderValue::to_str` accepts: `is_visible_ascii`,
i.e. `b >= 32 && b < 127 || b == b'\t'` — printable ASCII, space, or tab. -/
def isVisibleAscii (b : Nat) : Bool := (32 ≤ b ∧ b ≤ 126) ∨ b = 9

/-- The header-copy phase of the forwarding engine
(`proxy/service.rs`, the `headers.extend(...)` over `res.headers()`):
drop the 16 stripped names, and replace the value of `Location` with
`encode_url(config, value)`. On a retained `Location` whose value has a
byte `to_str` rejects, `value.to_str().unwrap()` PANICS and no response is
produced: that is the `none` result. (The later
`HeaderValue::from_str(&proxied_location).unwrap()` cannot fail once
`to_str` succeeded: `encode_url` only adds printable ASCII around bytes of
the accepted value.) -/
def respHeaderTransform (config : Config) : List Header → Option (List Header)
  | [] => some []
  | nv :: rest =>
    if nv.1 ∈ strippedRespHeaders then respHeaderTransform config rest
    else if nv.1 = locationName ∧ ¬ nv.2.all isVisibleAscii then none
    else (respHeaderTransform config rest).map fun ts =>
      (if nv.1 = locationName then (nv.1, encode_url config nv.2) else nv) :: ts

/-- `res.headers().get(CONTENT_TYPE)`: the first value of the header. -/
def headerGet (hs : List Header) (name : Bytes) : Option Bytes :=
  (hs.find? fun nv => nv.1 == name).map fun nv => nv.2

/-- The HTML test of the forwarding engine:
`content_type.to_str().unwrap_or("").contains("text/html")` —
`HeaderValue::to_str` fails (and `unwrap_or` yields `""`) unless every byte
is visible ASCII, space, or tab. -/
def isHtmlResp (hs : List Header) : Bool :=
  match headerGet hs contentTypeName with
  | some v => if v.all isVisibleAscii then containsSub textHtml v else false
  | none => false

/-- The complete downstream response header computation: the header-copy
phase (its panic propagated as `none`), then — in the `text/html` body
branch — removal of `Content-Encoding` and `Transfer-Encoding` before the
body is rewritten. -/
def downstreamRespHeaders (config : Config) (upstream : List Header) :
    Option (List Header) :=
  (respHeaderTransform config upstream).map fun hs =>
    if isHtmlResp upstream then
      hs.filter fun nv => ¬ (nv.1 = contentEncodingName ∨ nv.1 = transferEncodingName)
    else hs

/-- The downstream response metadata built by the forwarding engine:
`Response::builder().status(res.status().as_u16())` with the transformed
headers (`none` when the copy phase panics). -/
def downstreamResp (config : Config) (status : Nat) (upstream : List Header) :
    Option (Nat × List Header) :=
  (downstreamRespHeaders config upstream).map fun hs => (status, hs)

/-- The upstream request URL (`format!("{}{}", origin_url, parts.uri)` in
`proxy/service.rs`): the `From<Origin>` string followed by the inbound
request URI. -/
def upstreamUrl (o : Origin) (uri : Bytes) : Bytes := originToString o ++ uri

/-- The `Host` header sent upstream
(`parts.headers.insert(HOST, HeaderValue::from_str(origin.host())?)`):
the origin host alone. -/
def upstreamHostHeader (o : Origin) : Bytes := o.host

/-- The bytes of `"head"`. -/
def headName : Bytes := ['h','e','a','d'].map Char.toNat

/-- The bytes of `"script"`. -/
def scriptName : Bytes := ['s','c','r','i','p','t'].map Char.toNat

/-- The bytes of `"type"`. -/
def typeName : Bytes := ['t','y','p','e'].map Char.toNat

/-- The bytes of `"text/javascript"`. -/
def textJavascript : Bytes := ['t','e','x','t','/','j','a','v','a','s','c','r','i','p','t'].map Char.toNat

/-- The bytes of `"href"`. -/
def hrefName : Bytes := ['h','r','e','f'].map Char.toNat

/-- The bytes of `"src"`. -/
def srcName : Bytes := ['s','r','c'].map Char.toNat

/-- The bytes of `"poster"`. -/
def posterName : Bytes := ['p','o','s','t','e','r'].map Char.toNat

/-- Modelled from the spec: the bundled client patch script
(`include_str!("../patches.js")`, a repository file not under `src/`).
Its contents are declared out of scope by the spec; only its identity as the
injected script body matters, so a concrete placeholder stands for it. -/
def patchScript : Bytes := ['p','a','t','c','h','e','s','.','j','s'].map Char.toNat

/-- The token stream of an HTML document as the streaming rewriter sees it:
start tags with their attribute list, end tags, and text. This is the event
model of `lol_html` restricted to balanced tags. -/
inductive HtmlTok where
  | startTag (name : Bytes) (attrs : List (Bytes × Bytes)) : HtmlTok
  | endTag (name : Bytes) : HtmlTok
  | text (content : Bytes) : HtmlTok
deriving DecidableEq

/-- One attribute handler of the HTML rewriter
(`element!("[attr]", ...)`): if the element carries the attribute, read its
(first) value with `get_attribute` and `set_attribute` it to
`encode_url(config, value)`. -/
def attrRewrite (config : Config) (attrs : List (Bytes × Bytes)) (aname : Bytes) :
    List (Bytes × Bytes) :=
  match attrs.find? fun av => av.1 == aname with
  | none => attrs
  | some av => attrs.map fun x => if x.1 = aname then (x.1, encode_url config av.2) else x

/-- The element handlers applied to one start tag, in registration order:
`[href]`, `[src]`, `[poster]`. -/
def rewriteTok (config : Config) : HtmlTok → HtmlTok
  | .startTag n attrs =>
      .startTag n (attrRewrite config (attrRewrite config (attrRewrite config attrs hrefName) srcName) posterName)
  | t => t

/-- The tokens `el.append("<script type=\"text/javascript\">...</script>",
ContentType::Html)` inserts: `lol_html`'s `append` places content immediately
before the element's end tag, i.e. as the element's last child. -/
def scriptToks : List HtmlTok :=
  [.startTag scriptName [(typeName, textJavascript)],
   .text patchScript,
   .endTag scriptName]

/-- The HTML rewriter (`rewriting/html/html_rewriter.rs`) on the token
stream: every start tag goes through the attribute handlers; the
`element!("head", ...)` handler fires on every `head` element and appends the
script tokens immediately before the matching `</head>`. The depth counter
tracks currently open (matched) `head` elements so that an unmatched
`</head>` inserts nothing. -/
def htmlRewriteGo (config : Config) : Nat → List HtmlTok → List HtmlTok
  | _, [] => []
  | depth, .startTag n attrs :: rest =>
      rewriteTok config (.startTag n attrs) ::
        htmlRewriteGo config (if n = headName then depth + 1 else depth) rest
  | depth, .endTag n :: rest =>
      if n = headName then
        if depth = 0 then .endTag n :: htmlRewriteGo config 0 rest
        else scriptToks ++ (.endTag n :: htmlRewriteGo config (depth - 1) rest)
      else .endTag n :: htmlRewriteGo config depth rest
  | depth, .text s :: rest => .text s :: htmlRewriteGo config depth rest

/-- `HtmlRewriter::rewrite` on the token stream. -/
def htmlRewrite (config : Config) (ts : List HtmlTok) : List HtmlTok :=
  htmlRewriteGo config 0 ts

/-! ### Arithmetic bridges for the base32 chunk transforms

Each mask-and-shift expression over byte values equals a plain div/mod
expression; the disjoint bitwise ors equal sums. All are finite checks. -/

theorem and248_shr3 : ∀ b < 256, (b &&& 0xF8) >>> 3 = b / 8 := by decide

theorem and7_shl2 : ∀ b < 256, (b &&& 0x07) <<< 2 = b % 8 * 4 := by decide

theorem and192_shr6 : ∀ b < 256, (b &&& 0xC0) >>> 6 = b / 64 := by decide

theorem and62_shr1 : ∀ b < 256, (b &&& 0x3E) >>> 1 = b / 2 % 32 := by decide

theorem and1_shl4 : ∀ b < 256, (b &&& 0x01) <<< 4 = b % 2 * 16 := by decide

theorem and240_shr4 : ∀ b < 256, (b &&& 0xF0) >>> 4 = b / 16 := by decide

theorem and15_shl1 : ∀ b < 256, (b &&& 0x0F) <<< 1 = b % 16 * 2 := by decide

theorem and128_shr7 : ∀ b < 256, (b &&& 0x80) >>> 7 = b / 128 := by decide

theorem and124_shr2 : ∀ b < 256, (b &&& 0x7C) >>> 2 = b / 4 % 32 := by decide

theorem and3_shl3 : ∀ b < 256, (b &&& 0x03) <<< 3 = b % 4 * 8 := by decide

theorem and224_shr5 : ∀ b < 256, (b &&& 0xE0) >>> 5 = b / 32 := by decide

theorem and31_eq : ∀ b < 256, b &&& 0x1F = b % 32 := by decide

theorem or_mul4 : ∀ a < 8, ∀ b < 4, a * 4 ||| b = a * 4 + b := by decide

theorem or_mul16 : ∀ a < 2, ∀ b < 16, a * 16 ||| b = a * 16 + b := by decide

theorem or_mul2 : ∀ a < 16, ∀ b < 2, a * 2 ||| b = a * 2 + b := by decide

theorem or_mul8 : ∀ a < 4, ∀ b < 8, a * 8 ||| b = a * 8 + b := by decide

/-- Arithmetic form of `encGroup` on byte values. -/
theorem encGroup_arith (b0 b1 b2 b3 b4 : Nat) (h0 : b0 < 256) (h1 : b1 < 256)
    (h2 : b2 < 256) (h3 : b3 < 256) (h4 : b4 < 256) :
    encGroup b0 b1 b2 b3 b4 =
      [b0 / 8, b0 % 8 * 4 + b1 / 64, b1 / 2 % 32, b1 % 2 * 16 + b2 / 16,
       b2 % 16 * 2 + b3 / 128, b3 / 4 % 32, b3 % 4 * 8 + b4 / 32, b4 % 32] := by
  simp only [encGroup, and248_shr3 b0 h0, and7_shl2 b0 h0, and192_shr6 b1 h1,
    and62_shr1 b1 h1, and1_shl4 b1 h1, and240_shr4 b2 h2, and15_shl1 b2 h2,
    and128_shr7 b3 h3, and124_shr2 b3 h3, and3_shl3 b3 h3, and224_shr5 b4 h4,
    and31_eq b4 h4,
    or_mul4 (b0 % 8) (by omega) (b1 / 64) (by omega),
    or_mul16 (b1 % 2) (by omega) (b2 / 16) (by omega),
    or_mul2 (b2 % 16) (by omega) (b3 / 128) (by omega),
    or_mul8 (b3 % 4) (by omega) (b4 / 32) (by omega)]

theorem shl3_mod : ∀ v < 32, (v <<< 3) % 256 = v * 8 := by decide

theorem shr2_mod : ∀ v < 32, (v >>> 2) % 256 = v / 4 := by decide

theorem shl6_mod : ∀ v < 32, (v <<< 6) % 256 = v % 4 * 64 := by decide

theorem shl1_mod : ∀ v < 32, (v <<< 1) % 256 = v * 2 := by decide

theorem shr4_mod : ∀ v < 32, (v >>> 4) % 256 = v / 16 := by decide

theorem shl4_mod : ∀ v < 32, (v <<< 4) % 256 = v % 16 * 16 := by decide

theorem shr1_mod : ∀ v < 32, (v >>> 1) % 256 = v / 2 := by decide

theorem shl7_mod : ∀ v < 32, (v <<< 7) % 256 = v % 2 * 128 := by decide

theorem shl2_mod : ∀ v < 32, (v <<< 2) % 256 = v * 4 := by decide

theorem shr3_mod : ∀ v < 32, (v >>> 3) % 256 = v / 8 := by decide

theorem shl5_mod : ∀ v < 32, (v <<< 5) % 256 = v % 8 * 32 := by decide

theorem mod256_small : ∀ v < 32, v % 256 = v := by decide

theorem or_dec0 : ∀ a < 32, ∀ b < 8, a * 8 ||| b = a * 8 + b := by decide

theorem or_dec1 : ∀ a < 4, ∀ b < 32, ∀ c < 2, a * 64 ||| b * 2 ||| c = a * 64 + b * 2 + c := by
  decide

theorem or_dec2 : ∀ a < 16, ∀ b < 16, a * 16 ||| b = a * 16 + b := by decide

theorem or_dec3 : ∀ a < 2, ∀ b < 32, ∀ c < 4, a * 128 ||| b * 4 ||| c = a * 128 + b * 4 + c := by
  decide

theorem or_dec4 : ∀ a < 8, ∀ b < 32, a * 32 ||| b = a * 32 + b := by decide

/-- Arithmetic form of `decGroup8` on 5-bit symbol values. -/
theorem decGroup8_arith (v0 v1 v2 v3 v4 v5 v6 v7 : Nat) (h0 : v0 < 32)
    (h1 : v1 < 32) (h2 : v2 < 32) (h3 : v3 < 32) (h4 : v4 < 32) (h5 : v5 < 32)
    (h6 : v6 < 32) (h7 : v7 < 32) :
    decGroup8 v0 v1 v2 v3 v4 v5 v6 v7 =
      [v0 * 8 + v1 / 4, v1 % 4 * 64 + v2 * 2 + v3 / 16, v3 % 16 * 16 + v4 / 2,
       v4 % 2 * 128 + v5 * 4 + v6 / 8, v6 % 8 * 32 + v7] := by
  simp only [decGroup8, shl3_mod v0 h0, shr2_mod v1 h1, shl6_mod v1 h1,
    shl1_mod v2 h2, shr4_mod v3 h3, shl4_mod v3 h3, shr1_mod v4 h4,
    shl7_mod v4 h4, shl2_mod v5 h5, shr3_mod v6 h6, shl5_mod v6 h6,
    mod256_small v7 h7,
    or_dec0 v0 h0 (v1 / 4) (by omega),
    or_dec1 (v1 % 4) (by omega) v2 h2 (v3 / 16) (by omega),
    or_dec2 (v3 % 16) (by omega) (v4 / 2) (by omega),
    or_dec3 (v4 % 2) (by omega) v5 h5 (v6 / 8) (by omega),
    or_dec4 (v6 % 8) (by omega) v7 h7]

/-- Decoding a full 8-symbol group recovers its 5 source bytes. -/
theorem dec_enc5 (b0 b1 b2 b3 b4 : Nat) (h0 : b0 < 256) (h1 : b1 < 256)
    (h2 : b2 < 256) (h3 : b3 < 256) (h4 : b4 < 256) :
    decGroup8 (b0 / 8) (b0 % 8 * 4 + b1 / 64) (b1 / 2 % 32) (b1 % 2 * 16 + b2 / 16)
      (b2 % 16 * 2 + b3 / 128) (b3 / 4 % 32) (b3 % 4 * 8 + b4 / 32) (b4 % 32) =
      [b0, b1, b2, b3, b4] := by
  rw [decGroup8_arith _ _ _ _ _ _ _ _ (by omega) (by omega) (by omega) (by omega)
    (by omega) (by omega) (by omega) (by omega)]
  simp only [List.cons.injEq, and_true]
  omega

/-- Decoding the 2 kept symbols of a 1-byte final chunk (zero-filled). -/
theorem dec_enc1 (b0 : Nat) (h0 : b0 < 256) :
    decGroup8 (b0 / 8) (b0 % 8 * 4) 0 0 0 0 0 0 = [b0, 0, 0, 0, 0] := by
  rw [decGroup8_arith _ _ _ _ _ _ _ _ (by omega) (by omega) (by omega) (by omega)
    (by omega) (by omega) (by omega) (by omega)]
  simp only [List.cons.injEq, and_true]
  omega

/-- Decoding the 4 kept symbols of a 2-byte final chunk (zero-filled). -/
theorem dec_enc2 (b0 b1 : Nat) (h0 : b0 < 256) (h1 : b1 < 256) :
    decGroup8 (b0 / 8) (b0 % 8 * 4 + b1 / 64) (b1 / 2 % 32) (b1 % 2 * 16) 0 0 0 0 =
      [b0, b1, 0, 0, 0] := by
  rw [decGroup8_arith _ _ _ _ _ _ _ _ (by omega) (by omega) (by omega) (by omega)
    (by omega) (by omega) (by omega) (by omega)]
  simp only [List.cons.injEq, and_true]
  omega

/-- Decoding the 5 kept symbols of a 3-byte final chunk (zero-filled). -/
theorem dec_enc3 (b0 b1 b2 : Nat) (h0 : b0 < 256) (h1 : b1 < 256) (h2 : b2 < 256) :
    decGroup8 (b0 / 8) (b0 % 8 * 4 + b1 / 64) (b1 / 2 % 32) (b1 % 2 * 16 + b2 / 16)
      (b2 % 16 * 2) 0 0 0 = [b0, b1, b2, 0, 0] := by
  rw [decGroup8_arith _ _ _ _ _ _ _ _ (by omega) (by omega) (by omega) (by omega)
    (by omega) (by omega) (by omega) (by omega)]
  simp only [List.cons.injEq, and_true]
  omega

/-- Decoding the 7 kept symbols of a 4-byte final chunk (zero-filled). -/
theorem dec_enc4 (b0 b1 b2 b3 : Nat) (h0 : b0 < 256) (h1 : b1 < 256)
    (h2 : b2 < 256) (h3 : b3 < 256) :
    decGroup8 (b0 / 8) (b0 % 8 * 4 + b1 / 64) (b1 / 2 % 32) (b1 % 2 * 16 + b2 / 16)
      (b2 % 16 * 2 + b3 / 128) (b3 / 4 % 32) (b3 % 4 * 8) 0 = [b0, b1, b2, b3, 0] := by
  rw [decGroup8_arith _ _ _ _ _ _ _ _ (by omega) (by omega) (by omega) (by omega)
    (by omega) (by omega) (by omega) (by omega)]
  simp only [List.cons.injEq, and_true]
  omega

/-- Every 5-bit symbol value produced by the encoder is `< 32`. -/
theorem encVals_lt (data : Bytes) (h : ∀ b ∈ data, b < 256) :
    ∀ v ∈ encVals data, v < 32 := by
  induction data using encVals.induct with
  | case1 => simp [encVals]
  | case2 b0 =>
    have h0 := h b0 (by simp)
    rw [encVals, encGroup_arith b0 0 0 0 0 h0 (by omega) (by omega) (by omega) (by omega)]
    intro v hv
    simp only [List.take, List.mem_cons, List.not_mem_nil, or_false] at hv
    rcases hv with rfl | rfl <;> omega
  | case3 b0 b1 =>
    have h0 := h b0 (by simp); have h1 := h b1 (by simp)
    rw [encVals, encGroup_arith b0 b1 0 0 0 h0 h1 (by omega) (by omega) (by omega)]
    intro v hv
    simp only [List.take, List.mem_cons, List.not_mem_nil, or_false] at hv
    rcases hv with rfl | rfl | rfl | rfl <;> omega
  | case4 b0 b1 b2 =>
    have h0 := h b0 (by simp); have h1 := h b1 (by simp); have h2 := h b2 (by simp)
    rw [encVals, encGroup_arith b0 b1 b2 0 0 h0 h1 h2 (by omega) (by omega)]
    intro v hv
    simp only [List.take, List.mem_cons, List.not_mem_nil, or_false] at hv
    rcases hv with rfl | rfl | rfl | rfl | rfl <;> omega
  | case5 b0 b1 b2 b3 =>
    have h0 := h b0 (by simp); have h1 := h b1 (by simp)
    have h2 := h b2 (by simp); have h3 := h b3 (by simp)
    rw [encVals, encGroup_arith b0 b1 b2 b3 0 h0 h1 h2 h3 (by omega)]
    intro v hv
    simp only [List.take, List.mem_cons, List.not_mem_nil, or_false] at hv
    rcases hv with rfl | rfl | rfl | rfl | rfl | rfl | rfl <;> omega
  | case6 b0 b1 b2 b3 b4 rest ih =>
    have h0 := h b0 (by simp); have h1 := h b1 (by simp)
    have h2 := h b2 (by simp); have h3 := h b3 (by simp); have h4 := h b4 (by simp)
    rw [encVals, encGroup_arith b0 b1 b2 b3 b4 h0 h1 h2 h3 h4]
    intro v hv
    rcases List.mem_append.1 hv with hv | hv
    · simp only [List.mem_cons, List.not_mem_nil, or_false] at hv
      rcases hv with rfl | rfl | rfl | rfl | rfl | rfl | rfl | rfl <;> omega
    · exact ih (fun b hb => h b (by simp [hb])) v hv

/-- Length of the encoder's symbol output. -/
theorem encVals_length (data : Bytes) :
    (encVals data).length = 8 * (data.length / 5) + symCount (data.length % 5) := by
  induction data using encVals.induct with
  | case1 => simp [encVals, symCount]
  | case2 b0 => simp [encVals, symCount, encGroup]
  | case3 b0 b1 => simp [encVals, symCount, encGroup]
  | case4 b0 b1 b2 => simp [encVals, symCount, encGroup]
  | case5 b0 b1 b2 b3 => simp [encVals, symCount, encGroup]
  | case6 b0 b1 b2 b3 b4 rest ih =>
    have hg : (encGroup b0 b1 b2 b3 b4).length = 8 := rfl
    rw [encVals, List.length_append, hg, ih]
    have hL : (b0 :: b1 :: b2 :: b3 :: b4 :: rest).length = rest.length + 5 := by
      simp only [List.length_cons]
      try omega
    rw [hL]
    have hm : (rest.length + 5) % 5 = rest.length % 5 := by omega
    have hd : (rest.length + 5) / 5 = rest.length / 5 + 1 := by omega
    rw [hm, hd]; omega

/-- Decoding the encoder's symbol stream — optionally extended by the `k`
zero values that trailing `=` padding decodes to — recovers the input bytes
followed by the final chunk's zero fill. -/
theorem decVals_encVals (data : Bytes) (h : ∀ b ∈ data, b < 256) (k : Nat)
    (hk : k = 0 ∨ (data.length % 5 ≠ 0 ∧ k = 8 - symCount (data.length % 5))) :
    decVals (encVals data ++ List.replicate k 0) =
      data ++ List.replicate ((5 - data.length % 5) % 5) 0 := by
  induction data using encVals.induct with
  | case1 =>
    rcases hk with rfl | ⟨hlen, _⟩
    · simp [encVals, decVals]
    · simp at hlen
  | case2 b0 =>
    have h0 := h b0 (by simp)
    rw [encVals, encGroup_arith b0 0 0 0 0 h0 (by omega) (by omega) (by omega) (by omega)]
    have hk' : k = 0 ∨ k = 6 := by
      rcases hk with rfl | ⟨_, rfl⟩
      · left; rfl
      · right; simp [symCount]
    norm_num
    rcases hk' with rfl | rfl
    · simp only [List.replicate, List.append_nil]
      show decVals [b0 / 8, b0 % 8 * 4] = _
      rw [show decVals [b0 / 8, b0 % 8 * 4] =
        decGroup8 (b0 / 8) (b0 % 8 * 4) 0 0 0 0 0 0 from rfl]
      rw [dec_enc1 b0 h0]; try rfl
    · show decVals [b0 / 8, b0 % 8 * 4, 0, 0, 0, 0, 0, 0] = _
      rw [show decVals [b0 / 8, b0 % 8 * 4, 0, 0, 0, 0, 0, 0] =
        decGroup8 (b0 / 8) (b0 % 8 * 4) 0 0 0 0 0 0 ++ decVals [] from rfl]
      rw [dec_enc1 b0 h0]; try rfl
  | case3 b0 b1 =>
    have h0 := h b0 (by simp); have h1 := h b1 (by simp)
    rw [encVals, encGroup_arith b0 b1 0 0 0 h0 h1 (by omega) (by omega) (by omega)]
    have hk' : k = 0 ∨ k = 4 := by
      rcases hk with rfl | ⟨_, rfl⟩
      · left; rfl
      · right; simp [symCount]
    norm_num
    rcases hk' with rfl | rfl
    · simp only [List.replicate, List.append_nil]
      show decVals [b0 / 8, b0 % 8 * 4 + b1 / 64, b1 / 2 % 32, b1 % 2 * 16] = _
      rw [show decVals [b0 / 8, b0 % 8 * 4 + b1 / 64, b1 / 2 % 32, b1 % 2 * 16] =
        decGroup8 (b0 / 8) (b0 % 8 * 4 + b1 / 64) (b1 / 2 % 32) (b1 % 2 * 16) 0 0 0 0 from rfl]
      rw [dec_enc2 b0 b1 h0 h1]; try rfl
    · show decVals [b0 / 8, b0 % 8 * 4 + b1 / 64, b1 / 2 % 32, b1 % 2 * 16, 0, 0, 0, 0] = _
      rw [show decVals [b0 / 8, b0 % 8 * 4 + b1 / 64, b1 / 2 % 32, b1 % 2 * 16, 0, 0, 0, 0] =
        decGroup8 (b0 / 8) (b0 % 8 * 4 + b1 / 64) (b1 / 2 % 32) (b1 % 2 * 16) 0 0 0 0
          ++ decVals [] from rfl]
      rw [dec_enc2 b0 b1 h0 h1]; try rfl
  | case4 b0 b1 b2 =>
    have h0 := h b0 (by simp); have h1 := h b1 (by simp); have h2 := h b2 (by simp)
    rw [encVals, encGroup_arith b0 b1 b2 0 0 h0 h1 h2 (by omega) (by omega)]
    have hk' : k = 0 ∨ k = 3 := by
      rcases hk with rfl | ⟨_, rfl⟩
      · left; rfl
      · right; simp [symCount]
    norm_num
    rcases hk' with rfl | rfl
    · simp only [List.replicate, List.append_nil]
      show decVals [b0 / 8, b0 % 8 * 4 + b1 / 64, b1 / 2 % 32, b1 % 2 * 16 + b2 / 16,
        b2 % 16 * 2] = _
      rw [show decVals [b0 / 8, b0 % 8 * 4 + b1 / 64, b1 / 2 % 32, b1 % 2 * 16 + b2 / 16,
          b2 % 16 * 2] =
        decGroup8 (b0 / 8) (b0 % 8 * 4 + b1 / 64) (b1 / 2 % 32) (b1 % 2 * 16 + b2 / 16)
          (b2 % 16 * 2) 0 0 0 from rfl]
      rw [dec_enc3 b0 b1 b2 h0 h1 h2]; try rfl
    · show decVals [b0 / 8, b0 % 8 * 4 + b1 / 64, b1 / 2 % 32, b1 % 2 * 16 + b2 / 16,
        b2 % 16 * 2, 0, 0, 0] = _
      rw [show decVals [b0 / 8, b0 % 8 * 4 + b1 / 64, b1 / 2 % 32, b1 % 2 * 16 + b2 / 16,
          b2 % 16 * 2, 0, 0, 0] =
        decGroup8 (b0 / 8) (b0 % 8 * 4 + b1 / 64) (b1 / 2 % 32) (b1 % 2 * 16 + b2 / 16)
          (b2 % 16 * 2) 0 0 0 ++ decVals [] from rfl]
      rw [dec_enc3 b0 b1 b2 h0 h1 h2]; try rfl
  | case5 b0 b1 b2 b3 =>
    have h0 := h b0 (by simp); have h1 := h b1 (by simp)
    have h2 := h b2 (by simp); have h3 := h b3 (by simp)
    rw [encVals, encGroup_arith b0 b1 b2 b3 0 h0 h1 h2 h3 (by omega)]
    have hk' : k = 0 ∨ k = 1 := by
      rcases hk with rfl | ⟨_, rfl⟩
      · left; rfl
      · right; simp [symCount]
    norm_num
    rcases hk' with rfl | rfl
    · simp only [List.replicate, List.append_nil]
      show decVals [b0 / 8, b0 % 8 * 4 + b1 / 64, b1 / 2 % 32, b1 % 2 * 16 + b2 / 16,
        b2 % 16 * 2 + b3 / 128, b3 / 4 % 32, b3 % 4 * 8] = _
      rw [show decVals [b0 / 8, b0 % 8 * 4 + b1 / 64, b1 / 2 % 32, b1 % 2 * 16 + b2 / 16,
          b2 % 16 * 2 + b3 / 128, b3 / 4 % 32, b3 % 4 * 8] =
        decGroup8 (b0 / 8) (b0 % 8 * 4 + b1 / 64) (b1 / 2 % 32) (b1 % 2 * 16 + b2 / 16)
          (b2 % 16 * 2 + b3 / 128) (b3 / 4 % 32) (b3 % 4 * 8) 0 from rfl]
      rw [dec_enc4 b0 b1 b2 b3 h0 h1 h2 h3]; try rfl
    · show decVals [b0 / 8, b0 % 8 * 4 + b1 / 64, b1 / 2 % 32, b1 % 2 * 16 + b2 / 16,
        b2 % 16 * 2 + b3 / 128, b3 / 4 % 32, b3 % 4 * 8, 0] = _
      rw [show decVals [b0 / 8, b0 % 8 * 4 + b1 / 64, b1 / 2 % 32, b1 % 2 * 16 + b2 / 16,
          b2 % 16 * 2 + b3 / 128, b3 / 4 % 32, b3 % 4 * 8, 0] =
        decGroup8 (b0 / 8) (b0 % 8 * 4 + b1 / 64) (b1 / 2 % 32) (b1 % 2 * 16 + b2 / 16)
          (b2 % 16 * 2 + b3 / 128) (b3 / 4 % 32) (b3 % 4 * 8) 0 ++ decVals [] from rfl]
      rw [dec_enc4 b0 b1 b2 b3 h0 h1 h2 h3]; try rfl
  | case6 b0 b1 b2 b3 b4 rest ih =>
    have h0 := h b0 (by simp); have h1 := h b1 (by simp)
    have h2 := h b2 (by simp); have h3 := h b3 (by simp); have h4 := h b4 (by simp)
    have hm : (b0 :: b1 :: b2 :: b3 :: b4 :: rest).length % 5 = rest.length % 5 := by
      simp only [List.length_cons]; omega
    rw [encVals, encGroup_arith b0 b1 b2 b3 b4 h0 h1 h2 h3 h4, List.append_assoc]
    rw [show ([b0 / 8, b0 % 8 * 4 + b1 / 64, b1 / 2 % 32, b1 % 2 * 16 + b2 / 16,
        b2 % 16 * 2 + b3 / 128, b3 / 4 % 32, b3 % 4 * 8 + b4 / 32, b4 % 32] : List Nat)
        ++ (encVals rest ++ List.replicate k 0) =
      b0 / 8 :: (b0 % 8 * 4 + b1 / 64) :: b1 / 2 % 32 :: (b1 % 2 * 16 + b2 / 16) ::
        (b2 % 16 * 2 + b3 / 128) :: b3 / 4 % 32 :: (b3 % 4 * 8 + b4 / 32) :: b4 % 32 ::
        (encVals rest ++ List.replicate k 0) from rfl]
    rw [decVals, dec_enc5 b0 b1 b2 b3 b4 h0 h1 h2 h3 h4]
    rw [ih (fun b hb => h b (by simp [hb])) (by rw [← hm]; exact hk)]
    rw [hm]; rfl

/-- Looking an encoded character back up in the inverse table recovers its
symbol value, for every alphabet. -/
theorem lookup_encTable (a : Alphabet) :
    ∀ v < 32, lookupSym a ((encTable a).getD v 0) = some v := by
  cases a <;> try decide
  all_goals (rename_i p; cases p <;> decide)

/-- The encode-table characters are ASCII and are not `=`, `.`, `/` or `:`. -/
theorem encTable_char (a : Alphabet) :
    ∀ v < 32, (encTable a).getD v 0 < 128 ∧ (encTable a).getD v 0 ≠ 61 ∧
      (encTable a).getD v 0 ≠ 46 ∧ (encTable a).getD v 0 ≠ 47 ∧
      (encTable a).getD v 0 ≠ 58 := by
  cases a <;> try decide
  all_goals (rename_i p; cases p <;> decide)

/-- The padding byte `=` decodes to symbol value 0 in every inverse table. -/
theorem lookup_padByte (a : Alphabet) : lookupSym a 61 = some 0 := by
  cases a <;> rfl

/-- Looking the encoded characters back up recovers the symbol values. -/
theorem mapM_lookup (a : Alphabet) :
    ∀ vals : List Nat, (∀ v ∈ vals, v < 32) →
    (vals.map fun v => (encTable a).getD v 0).mapM (lookupSym a) = some vals := by
  intro vals
  induction vals with
  | nil => intro _; rfl
  | cons v rest ih =>
    intro h
    have hv := h v (by simp)
    simp only [List.map_cons, List.mapM_cons, lookup_encTable a v hv,
      ih fun x hx => h x (by simp [hx])]
    rfl

/-- `mapM` of the lookup over a run of padding bytes. -/
theorem mapM_lookup_rep (a : Alphabet) (k : Nat) :
    (List.replicate k 61).mapM (lookupSym a) = some (List.replicate k 0) := by
  induction k with
  | zero => rfl
  | succ n ih =>
    simp only [List.replicate, List.mapM_cons, lookup_padByte a, ih]
    rfl

/-- A string with no `=` byte has no trailing padding. -/
theorem trailingEq_zero (s : Bytes) (h : ∀ c ∈ s, c ≠ 61) : trailingEqCount s = 0 := by
  unfold trailingEqCount
  have hz : s.reverse.takeWhile (fun c => c == 61) = [] := by
    cases hs : s.reverse with
    | nil => rfl
    | cons c t =>
      have hc : c ∈ s := List.mem_reverse.1 (by rw [hs]; simp)
      rw [List.takeWhile_cons, if_neg]
      simp [h c hc]
  rw [hz]
  simp

/-- `takeWhile` passes over a run of elements satisfying the predicate. -/
theorem takeWhile_rep_append {p : Nat → Bool} {x : Nat} (hp : p x = true) (k : Nat)
    (t : Bytes) :
    (List.replicate k x ++ t).takeWhile p = List.replicate k x ++ t.takeWhile p := by
  induction k with
  | zero => rfl
  | succ n ih => simp only [List.replicate, List.cons_append, List.takeWhile_cons, hp,
      if_true, ih]

/-- The trailing-padding count of an encoded string with `k ≤ 6` padding
bytes after non-`=` characters. -/
theorem trailingEq_pad (chars : Bytes) (k : Nat) (hck : ∀ c ∈ chars, c ≠ 61)
    (hne : chars ≠ []) (hk6 : k ≤ 6) :
    trailingEqCount (chars ++ List.replicate k 61) = k := by
  unfold trailingEqCount
  rw [List.reverse_append, List.reverse_replicate,
    takeWhile_rep_append (by rfl) k chars.reverse]
  have hz : chars.reverse.takeWhile (fun c => c == 61) = [] := by
    cases hs : chars.reverse with
    | nil => exact absurd (by simpa using congrArg List.reverse hs) hne
    | cons c t =>
      have hc : c ∈ chars := List.mem_reverse.1 (by rw [hs]; simp)
      rw [List.takeWhile_cons, if_neg]
      simp [hck c hc]
  rw [hz]
  simp only [List.append_nil, List.length_replicate, List.length_append]
  omega

/-- The decoder's output-length computation inverts the encoder's
symbol-count computation. -/
theorem outLen_eq (n : Nat) : (8 * (n / 5) + symCount (n % 5)) * 5 / 8 = n := by
  simp only [symCount]
  omega

/-- Unfolding of a successful `b32decode`. -/
theorem b32decode_some (a : Alphabet) (s : Bytes) (vals : List Nat)
    (hascii : ∀ c ∈ s, c < 128) (hm : s.mapM (lookupSym a) = some vals) :
    b32decode a s =
      some ((decVals vals).take ((s.length - trailingEqCount s) * 5 / 8)) := by
  have hall : ¬¬ s.all (fun c => c < 128) = true := by
    simp only [not_not, List.all_eq_true]
    intro c hc
    simpa using hascii c hc
  unfold b32decode
  rw [if_neg hall, hm]

/-- Round-trip law of the base32 crate: decoding an encoded byte string
returns exactly the input, for every alphabet (with or without padding). -/
theorem b32_roundtrip (a : Alphabet) (data : Bytes) (h : ∀ b ∈ data, b < 256) :
    b32decode a (b32encode a data) = some data := by
  have hlt := encVals_lt data h
  have hchar : ∀ c ∈ (encVals data).map (fun v => (encTable a).getD v 0),
      c < 128 ∧ c ≠ 61 := by
    intro c hc
    rcases List.mem_map.1 hc with ⟨v, hv, rfl⟩
    have := encTable_char a v (hlt v hv)
    exact ⟨this.1, this.2.1⟩
  have hmlen : ((encVals data).map fun v => (encTable a).getD v 0).length =
      8 * (data.length / 5) + symCount (data.length % 5) := by
    rw [List.length_map, encVals_length]
  by_cases hp : padFlag a = true ∧ data.length % 5 ≠ 0
  · -- padding branch
    have hb : b32encode a data =
        ((encVals data).map fun v => (encTable a).getD v 0) ++
          List.replicate (8 - symCount (data.length % 5)) 61 := by
      unfold b32encode
      rw [if_pos (by exact_mod_cast hp)]
    have hr5 : data.length % 5 < 5 := Nat.mod_lt _ (by omega)
    have hsc : 2 ≤ symCount (data.length % 5) ∧ symCount (data.length % 5) ≤ 8 := by
      simp only [symCount]; omega
    have hk6 : 8 - symCount (data.length % 5) ≤ 6 := by omega
    have hcne : ((encVals data).map fun v => (encTable a).getD v 0) ≠ [] := by
      intro hz
      have := congrArg List.length hz
      rw [hmlen] at this
      simp at this
      omega
    rw [hb]
    unfold b32decode
    rw [if_neg]
    · rw [List.mapM_append, mapM_lookup a _ hlt, mapM_lookup_rep a]
      simp only [Option.bind_eq_bind, Option.some_bind, Option.pure_def]
      rw [trailingEq_pad _ _ (fun c hc => (hchar c hc).2) hcne hk6]
      rw [decVals_encVals data h _ (Or.inr ⟨hp.2, rfl⟩)]
      simp only [List.length_append, hmlen, List.length_replicate]
      have harith : (8 * (data.length / 5) + symCount (data.length % 5) +
          (8 - symCount (data.length % 5)) - (8 - symCount (data.length % 5))) * 5 / 8 =
          data.length := by
        rw [Nat.add_sub_cancel]; exact outLen_eq _
      rw [harith, List.take_left' rfl]
    · simp only [not_not, List.all_eq_true, List.mem_append]
      intro c hc
      rcases hc with hc | hc
      · simpa using (hchar c hc).1
      · rcases List.eq_of_mem_replicate hc with rfl
        simp
  · -- no-padding branch
    have hb : b32encode a data =
        (encVals data).map fun v => (encTable a).getD v 0 := by
      unfold b32encode
      rw [if_neg (by exact_mod_cast hp)]
    rw [hb, b32decode_some a _ _ (fun c hc => (hchar c hc).1) (mapM_lookup a _ hlt)]
    rw [trailingEq_zero _ fun c hc => (hchar c hc).2]
    have hdv := decVals_encVals data h 0 (Or.inl rfl)
    simp only [List.replicate, List.append_nil] at hdv
    rw [hdv, hmlen, Nat.sub_zero, outLen_eq, List.take_left' rfl]

/-! ### Lemmas about the byte-string utilities -/

theorem xorCycleGo_length (key : Bytes) : ∀ i bytes, (xorCycleGo key i bytes).length = bytes.length := by
  intro i bytes
  induction bytes generalizing i with
  | nil => rfl
  | cons b rest ih => simp [xorCycleGo, ih]

theorem xorCycleGo_invol (key : Bytes) : ∀ bytes i, xorCycleGo key i (xorCycleGo key i bytes) = bytes := by
  intro bytes
  induction bytes with
  | nil => intro i; rfl
  | cons b rest ih =>
    intro i
    simp only [xorCycleGo, ih]
    rw [Nat.xor_assoc, Nat.xor_self, Nat.xor_zero]

/-- XOR-masking with a non-empty key is an involution. -/
theorem xorCycle_invol (key bytes : Bytes) (hk : key ≠ []) :
    xorCycle key (xorCycle key bytes) = bytes := by
  have hne : ¬ key.isEmpty = true := by simpa [List.isEmpty_iff] using hk
  unfold xorCycle
  rw [if_neg hne, if_neg hne, xorCycleGo_invol]

theorem xorCycleGo_lt (key : Bytes) (hkey : ∀ k ∈ key, k < 256) :
    ∀ bytes, (∀ b ∈ bytes, b < 256) → ∀ i, ∀ x ∈ xorCycleGo key i bytes, x < 256 := by
  intro bytes
  induction bytes with
  | nil => intro _ i x hx; simp [xorCycleGo] at hx
  | cons b rest ih =>
    intro h i x hx
    simp only [xorCycleGo, List.mem_cons] at hx
    rcases hx with rfl | hx
    · have hb : b < 256 := h b (by simp)
      have hkd : key.getD (i % key.length) 0 < 256 := by
        rcases key with _ | ⟨k0, ks⟩
        · simp [List.getD]
        · have hlt : i % (k0 :: ks).length < (k0 :: ks).length :=
            Nat.mod_lt _ (by simp)
          rw [List.getD_eq_getElem _ _ hlt]
          exact hkey _ (List.getElem_mem hlt)
      have : b ^^^ key.getD (i % key.length) 0 < 2 ^ 8 :=
        Nat.xor_lt_two_pow (by omega) (by omega)
      omega
    · exact ih (fun y hy => h y (by simp [hy])) (i + 1) x hx

theorem xorCycle_lt (key bytes : Bytes) (hkey : ∀ k ∈ key, k < 256)
    (h : ∀ b ∈ bytes, b < 256) : ∀ x ∈ xorCycle key bytes, x < 256 := by
  unfold xorCycle
  by_cases he : key.isEmpty = true
  · simp [he]
  · rw [if_neg he]
    exact xorCycleGo_lt key hkey bytes h 0

theorem xor_eq_left_iff (b k : Nat) : b ^^^ k = b ↔ k = 0 := by
  constructor
  · intro h
    have h2 := congrArg (fun x => b ^^^ x) h
    simp only [← Nat.xor_assoc, Nat.xor_self, Nat.zero_xor] at h2
    exact h2
  · rintro rfl
    exact Nat.xor_zero b

/-- The masked stream equals the input exactly when every used key byte is 0. -/
theorem xorCycleGo_eq_self (key : Bytes) :
    ∀ bytes i, xorCycleGo key i bytes = bytes ↔
      ∀ j < bytes.length, key.getD ((i + j) % key.length) 0 = 0 := by
  intro bytes
  induction bytes with
  | nil => intro i; simp [xorCycleGo]
  | cons b rest ih =>
    intro i
    simp only [xorCycleGo, List.cons.injEq]
    constructor
    · rintro ⟨hb, hrest⟩
      intro j hj
      rcases j with _ | j
      · rw [Nat.add_zero]
        exact (xor_eq_left_iff _ _).1 hb
      · have := (ih (i + 1)).1 hrest j (by simp only [List.length_cons] at hj; omega)
        rw [show i + (j + 1) = i + 1 + j by omega]
        exact this
    · intro hall
      refine ⟨(xor_eq_left_iff _ _).2 ?_, (ih (i + 1)).2 ?_⟩
      · simpa using hall 0 (by simp)
      · intro j hj
        rw [show i + 1 + j = i + (j + 1) by omega]
        exact hall (j + 1) (by simp only [List.length_cons]; omega)

/-- `splitOnce` is correct: a successful split reassembles to the input. -/
theorem splitOnce_eq (pat : Bytes) :
    ∀ s a b, splitOnce pat s = some (a, b) → s = a ++ pat ++ b := by
  intro s
  induction s with
  | nil => intro a b h; simp [splitOnce] at h
  | cons c rest ih =>
    intro a b h
    rw [splitOnce] at h
    by_cases hp : pat.isPrefixOf (c :: rest) = true
    · rw [if_pos hp] at h
      rcases Option.some.injEq _ _ ▸ h with h'
      obtain ⟨rfl, rfl⟩ := Prod.mk.injEq .. ▸ (Option.some.inj h)
      have := List.prefix_iff_eq_append.1 (List.isPrefixOf_iff_prefix.1 hp)
      simp only [List.nil_append]
      exact this.symm
    · rw [if_neg hp] at h
      rcases hs : splitOnce pat rest with _ | ⟨a', b'⟩
      · rw [hs] at h; simp at h
      · rw [hs] at h
        obtain ⟨rfl, rfl⟩ := Prod.mk.injEq .. ▸ (Option.some.inj h)
        have := ih a' b' hs
        simp [this]

/-- `splitOnce` finds the separator after a clean run: if no byte of `pre`
equals the first byte of the pattern, the split lands at the boundary. -/
theorem splitOnce_boundary (p0 : Nat) (pt : Bytes) :
    ∀ (pre b : Bytes), (∀ c ∈ pre, c ≠ p0) →
      splitOnce (p0 :: pt) (pre ++ (p0 :: pt) ++ b) = some (pre, b) := by
  intro pre
  induction pre with
  | nil =>
    intro b _
    simp only [List.nil_append]
    rw [show ((p0 :: pt) ++ b : Bytes) = p0 :: (pt ++ b) from rfl]
    rw [splitOnce]
    rw [if_pos (by
      refine List.isPrefixOf_iff_prefix.2 ?_
      exact List.prefix_append _ _)]
    rw [show (p0 :: (pt ++ b) : Bytes) = (p0 :: pt) ++ b from rfl]
    rw [List.drop_left]
  | cons c pre' ih =>
    intro b h
    have hc : c ≠ p0 := h c (by simp)
    rw [show ((c :: pre') ++ (p0 :: pt) ++ b : Bytes) =
      c :: (pre' ++ (p0 :: pt) ++ b) from rfl]
    rw [splitOnce]
    rw [if_neg (by
      intro hp
      have := List.isPrefixOf_iff_prefix.1 hp
      rcases this with ⟨t, ht⟩
      simp only [List.cons_append] at ht
      exact hc (List.head_eq_of_cons_eq ht).symm)]
    rw [ih b fun x hx => h x (by simp [hx])]

/-- `splitOnce` fails when the first pattern byte does not occur. -/
theorem splitOnce_none (p0 : Nat) (pt : Bytes) :
    ∀ s : Bytes, p0 ∉ s → splitOnce (p0 :: pt) s = none := by
  intro s
  induction s with
  | nil => intro _; rfl
  | cons c rest ih =>
    intro h
    rw [splitOnce]
    rw [if_neg (by
      intro hp
      rcases List.isPrefixOf_iff_prefix.1 hp with ⟨t, ht⟩
      simp only [List.cons_append] at ht
      exact h (by rw [← List.head_eq_of_cons_eq ht]; simp))]
    rw [ih fun hx => h (by simp [hx])]

theorem stripSuffix_append (a b : Bytes) : stripSuffix (a ++ b) b = some a := by
  unfold stripSuffix
  rw [if_pos (List.isSuffixOf_iff_suffix.2 (List.suffix_append a b))]
  congr 1
  rw [List.length_append, Nat.add_sub_cancel, List.take_left]

theorem stripSuffix_nil (sfx : Bytes) (h : sfx ≠ []) : stripSuffix [] sfx = none := by
  unfold stripSuffix
  rw [if_neg]
  intro hs
  exact h (List.suffix_nil.1 (List.isSuffixOf_iff_suffix.1 hs))

theorem trimEndDots_append_dot (s : Bytes) (h : ∀ c ∈ s, c ≠ 46) :
    trimEndDots (s ++ [46]) = s := by
  unfold trimEndDots
  rw [List.reverse_append]
  rw [show ([46] : Bytes).reverse ++ s.reverse = 46 :: s.reverse from rfl]
  rw [List.dropWhile_cons, if_pos (by simp)]
  have hz : s.reverse.dropWhile (fun b => b == 46) = s.reverse := by
    cases hs : s.reverse with
    | nil => rfl
    | cons c t =>
      have hc : c ∈ s := List.mem_reverse.1 (by rw [hs]; simp)
      rw [List.dropWhile_cons, if_neg (by simp [h c hc])]
  rw [hz, List.reverse_reverse]

theorem rfind_none (c : Nat) : ∀ s : Bytes, c ∉ s → rfind c s = none := by
  intro s
  induction s with
  | nil => intro _; rfl
  | cons b rest ih =>
    intro h
    rw [rfind, ih fun hx => h (by simp [hx])]
    simp only [List.mem_cons, not_or] at h
    simp [beq_eq_false_iff_ne.2 fun hx => h.1 hx.symm]

theorem validUtf8Go_ascii : ∀ fuel (s : Bytes), (∀ c ∈ s, c < 128) →
    s.length ≤ fuel → validUtf8Go fuel s = true := by
  intro fuel
  induction fuel with
  | zero =>
    intro s h hlen
    rcases s with _ | ⟨c, rest⟩
    · rfl
    · simp at hlen
  | succ n ih =>
    intro s h hlen
    rcases s with _ | ⟨c, rest⟩
    · rfl
    · have hc : c ≤ 127 := by have := h c (by simp); omega
      show (if c ≤ 127 then validUtf8Go n rest else _) = true
      rw [if_pos hc]
      exact ih rest (fun x hx => h x (by simp [hx])) (by simp at hlen; omega)

theorem validUtf8_ascii (s : Bytes) (h : ∀ c ∈ s, c < 128) : validUtf8 s = true :=
  validUtf8Go_ascii s.length s h le_rfl

theorem fromUtf8_ascii (s : Bytes) (h : ∀ c ∈ s, c < 128) : fromUtf8 s = some s := by
  unfold fromUtf8
  rw [if_pos (validUtf8_ascii s h)]

theorem natDigits_bounds (n : Nat) : ∀ c ∈ natDigits n, 48 ≤ c ∧ c ≤ 57 := by
  induction n using natDigits.induct with
  | case1 n hn =>
    rw [natDigits, dif_pos hn]
    intro c hc
    simp only [List.mem_cons, List.not_mem_nil, or_false] at hc
    omega
  | case2 n hn ih =>
    rw [natDigits, dif_neg hn]
    intro c hc
    rcases List.mem_append.1 hc with hc | hc
    · exact ih c hc
    · simp only [List.mem_cons, List.not_mem_nil, or_false] at hc
      have : n % 10 < 10 := Nat.mod_lt _ (by omega)
      omega

theorem natDigits_ne_nil (n : Nat) : natDigits n ≠ [] := by
  rw [natDigits]
  by_cases hn : n < 10
  · rw [dif_pos hn]; simp
  · rw [dif_neg hn]; simp

theorem foldl_natDigits (n : Nat) :
    (natDigits n).foldl (fun a c => a * 10 + (c - 48)) 0 = n := by
  induction n using natDigits.induct with
  | case1 n hn =>
    rw [natDigits, dif_pos hn]
    simp
  | case2 n hn ih =>
    rw [natDigits, dif_neg hn, List.foldl_append, ih]
    simp only [List.foldl]
    omega

theorem parseU16_natDigits (p : Nat) (hp : p ≤ 65535) :
    parseU16 (natDigits p) = some p := by
  unfold parseU16
  rcases hd : natDigits p with _ | ⟨d, t⟩
  · exact absurd hd (natDigits_ne_nil p)
  · have hdig : ∀ c ∈ natDigits p, 48 ≤ c ∧ c ≤ 57 := natDigits_bounds p
    have hd43 : d ≠ 43 := by
      have := hdig d (by rw [hd]; simp)
      omega
    simp only [if_neg hd43]
    rw [if_neg (by
      simp only [not_or, not_not]
      constructor
      · simp
      · rw [← hd]
        simp only [List.all_eq_true]
        intro c hc
        have := hdig c hc
        simp only [isDigitB]
        exact decide_eq_true (by omega))]
    rw [← hd, foldl_natDigits]
    rw [if_pos hp]

/-! ### `parse_origin` computation and characterization -/

/-- The literal bytes of a scheme. -/
def schemeBytes : Scheme → Bytes
  | .Http => strHttp
  | .Https => strHttps

theorem schemeBytes_no58 (sch : Scheme) : ∀ c ∈ schemeBytes sch, c ≠ 58 := by
  cases sch <;> decide

theorem schemeOfBytes_schemeBytes (sch : Scheme) :
    schemeOfBytes (schemeBytes sch) = some sch := by
  cases sch <;> rfl

theorem sepSS_cons : sepSS = 58 :: [47, 47] := rfl

/-- `splitOnce "://"` at the scheme boundary. -/
theorem splitOnce_scheme (sch : Scheme) (rest : Bytes) :
    splitOnce sepSS (schemeBytes sch ++ sepSS ++ rest) = some (schemeBytes sch, rest) := by
  rw [sepSS_cons]
  exact splitOnce_boundary 58 [47, 47] (schemeBytes sch) rest (schemeBytes_no58 sch)

/-- `splitOnce ":"` at the host/port boundary. -/
theorem splitOnce_hostport (host p : Bytes) (h58 : 58 ∉ host) :
    splitOnce [58] (host ++ 58 :: p) = some (host, p) := by
  have := splitOnce_boundary 58 [] host p fun c hc => by
    intro he; exact h58 (he ▸ hc)
  simpa using this

theorem splitOnce_hostonly (host : Bytes) (h58 : 58 ∉ host) :
    splitOnce [58] host = none :=
  splitOnce_none 58 [] host h58

theorem schemeBytes_ne_nil (sch : Scheme) : schemeBytes sch ≠ [] := by
  cases sch <;> decide

/-- `parse_origin` on `scheme://host`: the port defaults by scheme. -/
theorem parse_origin_noport (sch : Scheme) (host : Bytes) (h47 : 47 ∉ host)
    (h58 : 58 ∉ host) :
    parse_origin (schemeBytes sch ++ sepSS ++ host) = .ok ⟨sch, host, defaultPort sch⟩ := by
  have hne : schemeBytes sch ++ sepSS ++ host ≠ [] := by
    cases sch <;> simp [schemeBytes, strHttp, strHttps, sepSS]
  unfold parse_origin
  rw [if_neg hne]
  simp only [splitOnce_scheme sch host, schemeOfBytes_schemeBytes sch,
    splitOnce_hostonly host h58]
  rw [if_neg (by simp [h47, h58])]

/-- `parse_origin` on `scheme://host:port` with a parseable port. -/
theorem parse_origin_port (sch : Scheme) (host p : Bytes) (n : Nat) (h47 : 47 ∉ host)
    (h58 : 58 ∉ host) (hp : parseU16 p = some n) :
    parse_origin (schemeBytes sch ++ sepSS ++ (host ++ 58 :: p)) = .ok ⟨sch, host, n⟩ := by
  have hne : schemeBytes sch ++ sepSS ++ (host ++ 58 :: p) ≠ [] := by
    cases sch <;> simp [schemeBytes, strHttp, strHttps, sepSS]
  unfold parse_origin
  rw [if_neg hne]
  simp only [splitOnce_scheme sch (host ++ 58 :: p), schemeOfBytes_schemeBytes sch,
    splitOnce_hostport host p h58]
  rw [if_neg (by simp [h47, h58]), hp]

/-- Every `parse_origin` failure is `InvalidOriginError`. -/
theorem parse_origin_err (s : Bytes) (e : ProxyErr) (h : parse_origin s = .error e) :
    e = .invalidOrigin := by
  unfold parse_origin at h
  dsimp only at h
  split at h
  · exact (Except.error.inj h).symm
  · split at h
    · exact (Except.error.inj h).symm
    · split at h
      · exact (Except.error.inj h).symm
      · split at h
        · exact (Except.error.inj h).symm
        · split at h
          · split at h
            · exact (Except.error.inj h).symm
            · exact absurd h (by simp)
          · exact absurd h (by simp)

/-- The acceptance shape of `parse_origin`, written from the spec's
description of the codec (§4.1) with the host-emptiness requirement dropped:
scheme `http` or `https`, host free of `/` and `:` (possibly empty), port
given in Rust `u16` syntax when present, else defaulted by scheme. -/
def OriginShape (s : Bytes) (o : Origin) : Prop :=
  47 ∉ o.host ∧ 58 ∉ o.host ∧
  ((s = schemeBytes o.scheme ++ sepSS ++ o.host ∧ o.port = defaultPort o.scheme) ∨
   (∃ p, s = schemeBytes o.scheme ++ sepSS ++ (o.host ++ 58 :: p) ∧
     parseU16 p = some o.port))

/-- Success analysis of `parse_origin`: a parsed origin has the shape. -/
theorem parse_origin_shape (s : Bytes) (o : Origin) (h : parse_origin s = .ok o) :
    OriginShape s o := by
  unfold parse_origin at h
  dsimp only at h
  split at h
  · exact absurd h (by simp)
  · rcases hp1 : splitOnce sepSS s with _ | ⟨a, rest⟩
    · rw [hp1] at h
      simp only at h
      split at h
      · exact absurd h (by simp)
      · exact absurd h (by simp)
    · rw [hp1] at h
      simp only at h
      rcases hsch : schemeOfBytes a with _ | sch
      · rw [hsch] at h; exact absurd h (by simp)
      · rw [hsch] at h
        simp only at h
        have ha : a = schemeBytes sch := by
          unfold schemeOfBytes at hsch
          split at hsch
          · cases Option.some.inj hsch; assumption
          · split at hsch
            · cases Option.some.inj hsch; assumption
            · exact absurd hsch (by simp)
        have hs_eq : s = a ++ sepSS ++ rest := splitOnce_eq sepSS s a rest hp1
        rcases hp2 : splitOnce [58] rest with _ | ⟨hh, pp⟩
        · rw [hp2] at h
          simp only at h
          split at h
          · exact absurd h (by simp)
          · rename_i hmem
            cases Except.ok.inj h
            refine ⟨fun hx => hmem (Or.inl hx), fun hx => hmem (Or.inr hx), Or.inl ?_⟩
            exact ⟨by rw [hs_eq, ha], rfl⟩
        · rw [hp2] at h
          simp only at h
          split at h
          · exact absurd h (by simp)
          · rename_i hmem
            rcases hp16 : parseU16 pp with _ | n
            · rw [hp16] at h; exact absurd h (by simp)
            · rw [hp16] at h
              cases Except.ok.inj h
              have hrest : rest = hh ++ 58 :: pp := by
                have := splitOnce_eq [58] rest hh pp hp2
                simpa using this
              refine ⟨fun hx => hmem (Or.inl hx), fun hx => hmem (Or.inr hx), Or.inr ?_⟩
              exact ⟨pp, by rw [hs_eq, ha, hrest], hp16⟩

/-- The shape is sufficient: `parse_origin` accepts it. -/
theorem parse_origin_of_shape (s : Bytes) (o : Origin) (h : OriginShape s o) :
    parse_origin s = .ok o := by
  obtain ⟨h47, h58, hc⟩ := h
  rcases hc with ⟨rfl, hport⟩ | ⟨p, rfl, hp⟩
  · rcases o with ⟨sch, host, port⟩
    simp only at hport h47 h58 ⊢
    rw [parse_origin_noport sch host h47 h58, hport]
  · rcases o with ⟨sch, host, port⟩
    simp only at hp h47 h58 ⊢
    rw [parse_origin_port sch host p port h47 h58 hp]

/-! ### `parseUri` analysis -/

theorem isHostByte_facts (c : Nat) (h : isHostByte c = true) :
    c < 128 ∧ c ≠ 47 ∧ c ≠ 58 ∧ c ≠ 63 ∧ c ≠ 35 ∧ c ≠ 61 ∧ c ≠ 61 ∧ 33 ≤ c := by
  simp only [isHostByte, isAlphaB, isDigitB, decide_eq_true_eq] at h
  omega

theorem isSchemeByte_facts (c : Nat) (h : isSchemeByte c = true) :
    c < 128 ∧ c ≠ 58 ∧ c ≠ 47 := by
  simp only [isSchemeByte, isAlphaB, isDigitB, decide_eq_true_eq] at h
  omega

theorem isDigitB_facts (c : Nat) (h : isDigitB c = true) :
    c < 128 ∧ c ≠ 47 ∧ c ≠ 58 ∧ c ≠ 63 ∧ c ≠ 35 ∧ 33 ≤ c := by
  simp only [isDigitB, decide_eq_true_eq] at h
  omega

theorem drop_takeWhile (p : Nat → Bool) (l : Bytes) :
    l.drop (l.takeWhile p).length = l.dropWhile p := by
  have h := List.takeWhile_append_dropWhile (p := p) (l := l)
  calc l.drop (l.takeWhile p).length
      = (l.takeWhile p ++ l.dropWhile p).drop (l.takeWhile p).length := by rw [h]
    _ = l.dropWhile p := List.drop_left _ _

theorem dropWhile_shape (p : Nat → Bool) (l : Bytes) :
    l.dropWhile p = [] ∨ ∃ b t, l.dropWhile p = b :: t ∧ p b = false := by
  induction l with
  | nil => left; rfl
  | cons c rest ih =>
    rw [List.dropWhile_cons]
    by_cases hc : p c = true
    · rw [if_pos hc]; exact ih
    · rw [if_neg hc]
      right
      exact ⟨c, rest, rfl, by simpa using hc⟩

/-- The path component always begins with `/`. -/
theorem pathOf_shape (after : Bytes)
    (hafter : after = [] ∨ ∃ b t, after = b :: t ∧ (b = 47 ∨ b = 63 ∨ b = 35)) :
    ∃ t, pathOf after = 47 :: t := by
  rcases hafter with rfl | ⟨b, t, rfl, hb⟩
  · exact ⟨[], rfl⟩
  · rcases hb with rfl | rfl | rfl
    · refine ⟨t.takeWhile fun b => ¬ (b = 63 ∨ b = 35), ?_⟩
      simp [pathOf, List.takeWhile_cons]
    · refine ⟨[], ?_⟩
      simp [pathOf, List.takeWhile_cons]
    · refine ⟨[], ?_⟩
      simp [pathOf, List.takeWhile_cons]

/-- Inversion of a successful `parseUri`. -/
theorem parseUri_inv (u : Bytes) (parts : UriParts) (h : parseUri u = some parts) :
    (∃ rest, splitOnce sepSS u = some (parts.scheme, rest)) ∧
    parts.host ≠ [] ∧ parts.host.all isHostByte = true ∧
    (∀ n, parts.port = some n → n ≤ 65535) ∧ (∃ t, parts.path = 47 :: t) := by
  have hpath : ∀ rest : Bytes, ∃ t, pathOf (rest.drop
      (rest.takeWhile fun b => ¬ (b = 47 ∨ b = 63 ∨ b = 35)).length) = 47 :: t := by
    intro rest
    apply pathOf_shape
    rw [drop_takeWhile]
    rcases dropWhile_shape (fun b => ¬ (b = 47 ∨ b = 63 ∨ b = 35)) rest with hd | ⟨b, t, hd, hb⟩
    · left; exact hd
    · right
      refine ⟨b, t, hd, ?_⟩
      revert hb
      simp
      tauto
  have hport : ∀ pp n, parsePortDigits pp = some n → n ≤ 65535 := by
    intro pp n hpd
    unfold parsePortDigits at hpd
    split at hpd
    · exact absurd hpd (by simp)
    · dsimp only at hpd
      split at hpd
      · rename_i hle
        cases Option.some.inj hpd
        exact hle
      · exact absurd hpd (by simp)
  unfold parseUri at h
  rcases hs : splitOnce sepSS u with _ | ⟨sch, rest⟩
  · rw [hs] at h; exact absurd h (by simp)
  · rw [hs] at h
    dsimp only at h
    split at h
    · exact absurd h (by simp)
    · split at h
      · exact absurd h (by simp)
      · split at h
        · exact absurd h (by simp)
        · -- split the `splitOnce [58] auth` match
          split at h
          · -- no port separator: host is the whole authority
            split at h
            · exact absurd h (by simp)
            · rename_i hguard
              rw [not_or] at hguard
              cases Option.some.inj h
              exact ⟨⟨rest, rfl⟩, hguard.1, not_not.mp hguard.2, by simp,
                hpath rest⟩
          · -- explicit port
            rename_i hh pp hp2
            split at h
            · exact absurd h (by simp)
            · rename_i hguard
              rw [not_or] at hguard
              split at h
              · exact absurd h (by simp)
              · rename_i n hpd
                cases Option.some.inj h
                refine ⟨⟨rest, rfl⟩, hguard.1, not_not.mp hguard.2, ?_, hpath rest⟩
                intro n' hn'
                cases Option.some.inj hn'
                exact hport pp _ hpd

/-! ### The codec round trip (claim C1) -/

theorem takeWhile_append_all {p : Nat → Bool} :
    ∀ (a b : Bytes), (∀ c ∈ a, p c = true) →
    (a ++ b).takeWhile p = a ++ b.takeWhile p := by
  intro a
  induction a with
  | nil => intro b _; simp
  | cons c rest ih =>
    intro b h
    rw [List.cons_append, List.takeWhile_cons, if_pos (h c (by simp)),
      ih b fun x hx => h x (by simp [hx])]
    rfl

theorem b32encode_char (a : Alphabet) (data : Bytes) (h : ∀ b ∈ data, b < 256) :
    ∀ c ∈ b32encode a data, c < 128 ∧ c ≠ 46 ∧ c ≠ 47 ∧ c ≠ 58 := by
  intro c hc
  have hmap : ∀ x ∈ (encVals data).map (fun v => (encTable a).getD v 0),
      x < 128 ∧ x ≠ 46 ∧ x ≠ 47 ∧ x ≠ 58 := by
    intro x hx
    rcases List.mem_map.1 hx with ⟨v, hv, rfl⟩
    have hf := encTable_char a v (encVals_lt data h v hv)
    exact ⟨hf.1, hf.2.2.1, hf.2.2.2.1, hf.2.2.2.2⟩
  unfold b32encode at hc
  split at hc
  · rcases List.mem_append.1 hc with hx | hx
    · exact hmap c hx
    · rcases List.eq_of_mem_replicate hx with rfl
      exact ⟨by omega, by omega, by omega, by omega⟩
  · exact hmap c hc

/-- The hostname of an encoded URL is the label, the dot and the public
host. -/
theorem hostnameOf_enc (enc pub t : Bytes)
    (henc : ∀ c ∈ enc, c ≠ 47) (hpub : 47 ∉ pub) :
    hostnameOf (httpsSS ++ enc ++ [46] ++ pub ++ (47 :: t)) = enc ++ [46] ++ pub := by
  have hassoc : httpsSS ++ enc ++ [46] ++ pub ++ (47 :: t) =
      schemeBytes .Https ++ sepSS ++ ((enc ++ [46] ++ pub) ++ 47 :: t) := by
    simp [httpsSS, schemeBytes, List.append_assoc]
  have h1 : ∀ c ∈ enc ++ [46] ++ pub, (fun b => decide (b ≠ 47)) c = true := by
    intro c hcm
    rcases List.mem_append.1 hcm with hcm | hcm
    · rcases List.mem_append.1 hcm with hcm | hcm
      · simp [henc c hcm]
      · simp only [List.mem_cons, List.not_mem_nil, or_false] at hcm
        simp [hcm]
    · simp
      intro he
      exact hpub (he ▸ hcm)
  unfold hostnameOf
  rw [hassoc, splitOnce_scheme .Https]
  show ((enc ++ [46] ++ pub) ++ 47 :: t).takeWhile (fun b => decide (b ≠ 47)) =
    enc ++ [46] ++ pub
  rw [takeWhile_append_all _ _ h1, List.takeWhile_cons, if_neg (by simp),
    List.append_nil]

/-- Decoding the `Host` hostname of a `Base32`-encoded origin gives
`parse_origin` of the origin payload. -/
theorem proxied_origin_enc_base32 (a : Alphabet) (pub orig : Bytes)
    (horig : ∀ c ∈ orig, c < 128) (hpub58 : 58 ∉ pub) :
    proxied_origin ⟨.Base32 a, pub⟩ (b32encode a orig ++ [46] ++ pub) =
      parse_origin orig := by
  have horig' : ∀ c ∈ orig, c < 256 := fun c hc => by have := horig c hc; omega
  have henc := b32encode_char a orig horig'
  have hrfind : rfind 58 (b32encode a orig ++ [46] ++ pub) = none := by
    apply rfind_none
    intro hmem
    rcases List.mem_append.1 hmem with hm | hm
    · rcases List.mem_append.1 hm with hm | hm
      · exact (henc 58 hm).2.2.2 rfl
      · simp at hm
    · exact hpub58 hm
  unfold proxied_origin
  rw [hrfind]
  try simp only
  rw [stripSuffix_append (b32encode a orig ++ [46]) pub]
  try simp only
  rw [trimEndDots_append_dot (b32encode a orig) fun c hc => (henc c hc).2.1]
  try simp only
  rw [b32_roundtrip a orig horig']
  try simp only
  rw [fromUtf8_ascii orig horig]

/-- Decoding the `Host` hostname of a `Base32Xor`-encoded origin gives
`parse_origin` of the origin payload. -/
theorem proxied_origin_enc_xor (a : Alphabet) (key pub orig : Bytes)
    (horig : ∀ c ∈ orig, c < 128) (hpub58 : 58 ∉ pub)
    (hkey : key ≠ []) (hkeyB : ∀ k ∈ key, k < 256) :
    proxied_origin ⟨.Base32Xor a key, pub⟩
        (b32encode a (xorCycle key orig) ++ [46] ++ pub) =
      parse_origin orig := by
  have horig' : ∀ c ∈ orig, c < 256 := fun c hc => by have := horig c hc; omega
  have hmask : ∀ c ∈ xorCycle key orig, c < 256 := xorCycle_lt key orig hkeyB horig'
  have henc := b32encode_char a (xorCycle key orig) hmask
  have hrfind : rfind 58 (b32encode a (xorCycle key orig) ++ [46] ++ pub) = none := by
    apply rfind_none
    intro hmem
    rcases List.mem_append.1 hmem with hm | hm
    · rcases List.mem_append.1 hm with hm | hm
      · exact (henc 58 hm).2.2.2 rfl
      · simp at hm
    · exact hpub58 hm
  unfold proxied_origin
  rw [hrfind]
  try simp only
  rw [stripSuffix_append (b32encode a (xorCycle key orig) ++ [46]) pub]
  try simp only
  rw [trimEndDots_append_dot (b32encode a (xorCycle key orig))
    fun c hc => (henc c hc).2.1]
  try simp only
  rw [b32_roundtrip a (xorCycle key orig) hmask]
  try simp only
  rw [xorCycle_invol key orig hkey, fromUtf8_ascii orig horig]

/-- The origin prefix `scheme://host[:port]` of a parsed URL — the payload
`encode_url` base32-encodes, with the port rendered iff the URL carries
one. -/
def originOf (parts : UriParts) : Bytes :=
  parts.scheme ++ sepSS ++ parts.host ++
    (match parts.port with
     | some p => 58 :: natDigits p
     | none => [])

/-- The `Scheme` denoted by a parsed URL whose scheme is http or https. -/
def uriScheme (parts : UriParts) : Scheme :=
  if parts.scheme = strHttp then .Http else .Https

/-- The origin port of a parsed URL: explicit, or defaulted by scheme
(80 for http, 443 for https). -/
def uriPort (parts : UriParts) : Nat :=
  match parts.port with
  | some p => p
  | none => defaultPort (uriScheme parts)

theorem hostAll_facts (host : Bytes) (h : host.all isHostByte = true) :
    47 ∉ host ∧ 58 ∉ host ∧ ∀ c ∈ host, c < 128 := by
  have h' := List.all_eq_true.1 h
  refine ⟨fun hm => ?_, fun hm => ?_, fun c hc => ?_⟩
  · exact (isHostByte_facts 47 (h' 47 hm)).2.1 rfl
  · exact (isHostByte_facts 58 (h' 58 hm)).2.2.1 rfl
  · exact (isHostByte_facts c (h' c hc)).1

theorem schemeBytes_ascii (sch : Scheme) : ∀ c ∈ schemeBytes sch, c < 128 := by
  cases sch <;> decide

/-- ASCII bound for the origin payload. -/
theorem originOf_ascii (parts : UriParts)
    (hsch : parts.scheme = strHttp ∨ parts.scheme = strHttps)
    (hhost : parts.host.all isHostByte = true) :
    ∀ c ∈ originOf parts, c < 128 := by
  intro c hc
  unfold originOf at hc
  rcases List.mem_append.1 hc with hm | hm
  · rcases List.mem_append.1 hm with hm | hm
    · rcases List.mem_append.1 hm with hm | hm
      · rcases hsch with hs | hs <;> rw [hs] at hm
        · exact schemeBytes_ascii .Http c hm
        · exact schemeBytes_ascii .Https c hm
      · simp only [sepSS, List.mem_cons, List.not_mem_nil, or_false] at hm
        omega
    · exact (hostAll_facts parts.host hhost).2.2 c hm
  · rcases hp : parts.port with _ | p
    · rw [hp] at hm
      simp at hm
    · rw [hp] at hm
      simp only [List.mem_cons] at hm
      rcases hm with rfl | hm
      · omega
      · have := natDigits_bounds p c hm
        omega

/-- `parse_origin` on the origin payload of a parsed http(s) URL. -/
theorem parse_origin_originOf (parts : UriParts)
    (hsch : parts.scheme = strHttp ∨ parts.scheme = strHttps)
    (hhost : parts.host.all isHostByte = true)
    (hport : ∀ n, parts.port = some n → n ≤ 65535) :
    parse_origin (originOf parts) =
      .ok ⟨uriScheme parts, parts.host, uriPort parts⟩ := by
  obtain ⟨h47, h58, _⟩ := hostAll_facts parts.host hhost
  have hschemeVal : schemeBytes (uriScheme parts) = parts.scheme := by
    rcases hsch with hs | hs <;> rw [hs] <;> unfold uriScheme <;> rw [hs]
    · rw [if_pos rfl]; rfl
    · rw [if_neg (by decide)]; rfl
  rcases hp : parts.port with _ | p
  · have : originOf parts = schemeBytes (uriScheme parts) ++ sepSS ++ parts.host := by
      unfold originOf
      rw [hp, hschemeVal]
      simp
    rw [this, parse_origin_noport (uriScheme parts) parts.host h47 h58]
    unfold uriPort
    rw [hp]
  · have : originOf parts =
        schemeBytes (uriScheme parts) ++ sepSS ++ (parts.host ++ 58 :: natDigits p) := by
      unfold originOf
      rw [hp, hschemeVal]
      simp [List.append_assoc]
    rw [this, parse_origin_port (uriScheme parts) parts.host (natDigits p) p h47 h58
      (parseU16_natDigits p (hport p hp))]
    unfold uriPort
    rw [hp]

/-- Unfolding of `encode_url` under `Base32` on a URL that parses. -/
theorem encode_url_base32 (a : Alphabet) (pub u : Bytes) (parts : UriParts)
    (h : parseUri u = some parts) :
    encode_url ⟨.Base32 a, pub⟩ u =
      httpsSS ++ b32encode a (originOf parts) ++ [46] ++ pub ++ parts.path := by
  obtain ⟨⟨rest, hr⟩, _⟩ := parseUri_inv u parts h
  unfold encode_url
  rw [if_neg (by simp [containsSub, hr]), h]
  rfl

/-- Unfolding of `encode_url` under `Base32Xor` on a URL that parses. -/
theorem encode_url_xor (a : Alphabet) (key pub u : Bytes) (parts : UriParts)
    (h : parseUri u = some parts) :
    encode_url ⟨.Base32Xor a key, pub⟩ u =
      httpsSS ++ b32encode a (xorCycle key (originOf parts)) ++ [46] ++ pub ++
        parts.path := by
  obtain ⟨⟨rest, hr⟩, _⟩ := parseUri_inv u parts h
  unfold encode_url
  rw [if_neg (by simp [containsSub, hr]), h]
  rfl

/-- **C1** Round-trip law of the URL codec: for every absolute URL `u` whose
scheme is `http` or `https` and whose host is a DNS-legal name (as captured
by a successful `parseUri` with such a scheme), decoding the subdomain of
`encode_url cfg u` — i.e. `proxied_origin cfg (hostnameOf (encode_url cfg u))`
— succeeds and yields the `Origin` that `parse_origin` gives on the origin
prefix of `u` (`scheme://host[:port]`, port defaulted to 80/443 by scheme
when `u` gives none), both for the `Base32` and for the `Base32Xor`
algorithm (the latter for a non-empty `u8` key, as the repeating-key formula
`key[i mod |key|]` presumes). `public_host` is assumed free of `/` and `:`,
as a DNS suffix is. -/
theorem c1_url_codec_roundtrip (a : Alphabet) (key pub u : Bytes) (parts : UriParts)
    (hparse : parseUri u = some parts)
    (hsch : parts.scheme = strHttp ∨ parts.scheme = strHttps)
    (hpub47 : 47 ∉ pub) (hpub58 : 58 ∉ pub)
    (hkey : key ≠ []) (hkeyB : ∀ k ∈ key, k < 256) :
    (proxied_origin ⟨.Base32 a, pub⟩ (hostnameOf (encode_url ⟨.Base32 a, pub⟩ u)) =
        parse_origin (originOf parts) ∧
      proxied_origin ⟨.Base32 a, pub⟩ (hostnameOf (encode_url ⟨.Base32 a, pub⟩ u)) =
        .ok ⟨uriScheme parts, parts.host, uriPort parts⟩) ∧
    (proxied_origin ⟨.Base32Xor a key, pub⟩
        (hostnameOf (encode_url ⟨.Base32Xor a key, pub⟩ u)) =
        parse_origin (originOf parts) ∧
      proxied_origin ⟨.Base32Xor a key, pub⟩
        (hostnameOf (encode_url ⟨.Base32Xor a key, pub⟩ u)) =
        .ok ⟨uriScheme parts, parts.host, uriPort parts⟩) := by
  obtain ⟨hsplit, hne, hhost, hport, t, hpath⟩ := parseUri_inv u parts hparse
  have hascii := originOf_ascii parts hsch hhost
  have h256 : ∀ c ∈ originOf parts, c < 256 := fun c hc => by have := hascii c hc; omega
  have hpo := parse_origin_originOf parts hsch hhost hport
  constructor
  · have henc := b32encode_char a (originOf parts) h256
    have hmain : proxied_origin ⟨.Base32 a, pub⟩
        (hostnameOf (encode_url ⟨.Base32 a, pub⟩ u)) =
        parse_origin (originOf parts) := by
      rw [encode_url_base32 a pub u parts hparse, hpath,
        hostnameOf_enc _ pub t (fun c hc => (henc c hc).2.2.1) hpub47,
        proxied_origin_enc_base32 a pub (originOf parts) hascii hpub58]
    exact ⟨hmain, by rw [hmain, hpo]⟩
  · have hmask256 : ∀ c ∈ xorCycle key (originOf parts), c < 256 :=
      xorCycle_lt key _ hkeyB h256
    have henc := b32encode_char a (xorCycle key (originOf parts)) hmask256
    have hmain : proxied_origin ⟨.Base32Xor a key, pub⟩
        (hostnameOf (encode_url ⟨.Base32Xor a key, pub⟩ u)) =
        parse_origin (originOf parts) := by
      rw [encode_url_xor a key pub u parts hparse, hpath,
        hostnameOf_enc _ pub t (fun c hc => (henc c hc).2.2.1) hpub47,
        proxied_origin_enc_xor a key pub (originOf parts) hascii hpub58 hkey hkeyB]
    exact ⟨hmain, by rw [hmain, hpo]⟩

/-- Example public host `px.test`. -/
def pubEx : Bytes := ['p', 'x', '.', 't', 'e', 's', 't'].map Char.toNat

/-- Example URL `http://example.com:8080/a?b=1`. -/
def uEx : Bytes :=
  ['h', 't', 't', 'p', ':', '/', '/', 'e', 'x', 'a', 'm', 'p', 'l', 'e', '.',
   'c', 'o', 'm', ':', '8', '0', '8', '0', '/', 'a', '?', 'b', '=', '1'].map Char.toNat

/-- Example host `example.com`. -/
def hostEx : Bytes :=
  ['e', 'x', 'a', 'm', 'p', 'l', 'e', '.', 'c', 'o', 'm'].map Char.toNat

/-- The parse of `uEx`. -/
def partsEx : UriParts := ⟨strHttp, hostEx, some 8080, [47, 97]⟩

/-- Witness for C1 at `http://example.com:8080/a?b=1`, `public_host`
`px.test`, z-base-32, XOR key `[7]`. -/
theorem c1_url_codec_roundtrip_witness :
    proxied_origin ⟨.Base32 .Z, pubEx⟩
        (hostnameOf (encode_url ⟨.Base32 .Z, pubEx⟩ uEx)) =
      .ok ⟨.Http, hostEx, 8080⟩ ∧
    proxied_origin ⟨.Base32Xor .Z [7], pubEx⟩
        (hostnameOf (encode_url ⟨.Base32Xor .Z [7], pubEx⟩ uEx)) =
      .ok ⟨.Http, hostEx, 8080⟩ :=
  ⟨(c1_url_codec_roundtrip .Z [7] pubEx uEx partsEx (by decide) (Or.inl rfl)
      (by decide) (by decide) (by decide) (by decide)).1.2,
   (c1_url_codec_roundtrip .Z [7] pubEx uEx partsEx (by decide) (Or.inl rfl)
      (by decide) (by decide) (by decide) (by decide)).2.2⟩

/-- **C7** `encode_url` is total (it is a Lean function, defined for every
configuration and input string) and is the identity on malformed inputs: when
the input lacks `"://"`, or fails to parse as a URI with a scheme and an
authority (`parseUri` returns `none`), the input is returned unchanged. -/
theorem c7_encode_url_malformed_id (cfg : Config) (u : Bytes)
    (h : containsSub sepSS u = false ∨ parseUri u = none) :
    encode_url cfg u = u := by
  unfold encode_url
  by_cases hc : containsSub sepSS u = true
  · rw [if_neg (by simp [hc])]
    rcases h with h | h
    · rw [hc] at h; exact absurd h (by simp)
    · rw [h]
  · rw [if_pos (by simpa using hc)]

/-- Example malformed input `not a url`. -/
def malEx : Bytes := ['n', 'o', 't', ' ', 'a', ' ', 'u', 'r', 'l'].map Char.toNat

/-- Witness for C7: a string without `"://"` is returned unchanged. -/
theorem c7_encode_url_malformed_id_witness :
    encode_url ⟨.Base32 .Z, pubEx⟩ malEx = malEx :=
  c7_encode_url_malformed_id ⟨.Base32 .Z, pubEx⟩ malEx (Or.inl (by decide))

/-- **C5 (counterexample)** `parse_origin` does NOT require a non-empty
host: `http://` parses to an empty-host origin with port 80, and
`https://:8080` to an empty-host origin with port 8080, instead of failing
with `InvalidOrigin` as the claim states. -/
theorem c5_empty_host_accepted :
    parse_origin (strHttp ++ sepSS) = .ok ⟨.Http, [], 80⟩ ∧
    parse_origin (strHttps ++ sepSS ++ [58, 56, 48, 56, 48]) = .ok ⟨.Https, [], 8080⟩ := by
  constructor <;> rfl

/-- **C5 (amended)** `parse_origin` accepts exactly the strings
`scheme://host[:port]` with scheme `http` or `https` and a (possibly empty)
host containing neither `/` nor `:`, the port parsed by Rust `u16` syntax
when present and defaulted to 80/443 by scheme otherwise; every other input
— the empty string included — fails, always with `InvalidOrigin`. -/
theorem c5_parse_origin_spec :
    (∀ s o, parse_origin s = .ok o ↔ OriginShape s o) ∧
    (∀ s, parse_origin s = .error .invalidOrigin ∨ ∃ o, parse_origin s = .ok o) := by
  constructor
  · intro s o
    exact ⟨parse_origin_shape s o, parse_origin_of_shape s o⟩
  · intro s
    rcases h : parse_origin s with e | o
    · left
      rw [parse_origin_err s e h]
    · right; exact ⟨o, rfl⟩

theorem xorCycle_nil (key : Bytes) : xorCycle key [] = [] := by
  unfold xorCycle
  split <;> rfl

/-- **C6 (counterexample)** A `Host` header equal to `public_host` exactly
strips to the empty label, which base32-decodes to the empty byte string and
fails in `parse_origin` with `InvalidOrigin` — not with `InvalidHost` as the
claim states. -/
theorem c6_host_eq_public_host :
    proxied_origin ⟨.Base32 .Z, pubEx⟩ pubEx = .error .invalidOrigin ∧
    proxied_origin ⟨.Base32 .Z, pubEx⟩ pubEx ≠ .error .invalidHost := by
  have h0 : proxied_origin ⟨.Base32 .Z, pubEx⟩ pubEx = .error .invalidOrigin := rfl
  refine ⟨h0, ?_⟩
  rw [h0]
  simp

/-- **C6 (amended)** For every configuration whose `public_host` is non-empty
and colon-free: an empty `Host` header fails with `InvalidHost`; a `Host`
header equal to `public_host` exactly fails with `InvalidOrigin` (the empty
label decodes to the empty origin string). -/
theorem c6_missing_subdomain (cfg : Config) (hne : cfg.public_host ≠ [])
    (h58 : 58 ∉ cfg.public_host) :
    proxied_origin cfg [] = .error .invalidHost ∧
    proxied_origin cfg cfg.public_host = .error .invalidOrigin := by
  obtain ⟨alg, pub⟩ := cfg
  constructor
  · unfold proxied_origin
    rw [show rfind 58 [] = none from rfl]
    try simp only
    rw [stripSuffix_nil _ hne]
  · unfold proxied_origin
    rw [rfind_none 58 _ h58]
    try simp only
    have hstrip : stripSuffix pub pub = some [] := by
      simpa using stripSuffix_append [] pub
    rw [hstrip]
    try simp only
    rcases alg with a | ⟨a, k⟩
    · rfl
    · show (match b32decode a (trimEndDots []) with
        | none => (Except.error .decodeError : Except ProxyErr Origin)
        | some bytes =>
          match fromUtf8 (xorCycle k bytes) with
          | none => .error .utf8Error
          | some s => parse_origin s) = .error .invalidOrigin
      rw [show b32decode a (trimEndDots []) = some [] from rfl]
      show (match fromUtf8 (xorCycle k []) with
        | none => (Except.error .utf8Error : Except ProxyErr Origin)
        | some s => parse_origin s) = .error .invalidOrigin
      rw [xorCycle_nil k]
      try rfl

/-- Witness for C6 at `Base32(Z)`, `public_host = px.test`. -/
theorem c6_missing_subdomain_witness :
    proxied_origin ⟨.Base32 .Z, pubEx⟩ [] = .error .invalidHost ∧
    proxied_origin ⟨.Base32 .Z, pubEx⟩ pubEx = .error .invalidOrigin :=
  c6_missing_subdomain ⟨.Base32 .Z, pubEx⟩ (by decide) (by decide)

/-- Encoding is injective on byte strings (same alphabet). -/
theorem b32encode_inj (a : Alphabet) (x y : Bytes) (hx : ∀ b ∈ x, b < 256)
    (hy : ∀ b ∈ y, b < 256) (h : b32encode a x = b32encode a y) : x = y := by
  have hr := b32_roundtrip a x hx
  rw [h, b32_roundtrip a y hy] at hr
  exact (Option.some.inj hr).symm

/-- The masked payload differs from the origin exactly when some used key
byte is non-zero. -/
theorem xorCycle_ne_iff (key bytes : Bytes) (hk : key ≠ []) :
    xorCycle key bytes ≠ bytes ↔
      ∃ j, j < bytes.length ∧ key.getD (j % key.length) 0 ≠ 0 := by
  unfold xorCycle
  rw [if_neg (by simpa [List.isEmpty_iff] using hk)]
  have h := xorCycleGo_eq_self key bytes 0
  simp only [Nat.zero_add] at h
  constructor
  · intro hne
    by_contra hcon
    push_neg at hcon
    exact hne (h.2 fun j hj => hcon j hj)
  · rintro ⟨j, hj, hnz⟩ heq
    exact hnz (h.1 heq j hj)

/-- **C8 (counterexample)** With key `[0]` and origin `[97]` the two labels
are EQUAL although the origin byte differs from the corresponding key byte —
the claimed "differs iff some origin byte differs from the key byte"
equivalence is false; what matters is whether the key byte is zero. -/
theorem c8_zero_key_equal_labels :
    b32encode .Z (xorCycle [0] [97]) = b32encode .Z [97] ∧
    ([97] : Bytes).getD 0 0 ≠ ([0] : Bytes).getD (0 % ([0] : Bytes).length) 0 := by
  constructor <;> decide

/-- **C8 (amended)** For the same alphabet, a non-empty `u8` key and a byte
origin, the `Base32Xor` subdomain label differs from the `Base32` label
exactly when some key byte at a used repeating position (`j mod |key|` for
`j < |origin|`) is non-zero — equivalently, when the masked payload differs
from the origin. -/
theorem c8_xor_mask_difference (a : Alphabet) (key origin : Bytes)
    (hkey : key ≠ []) (hkeyB : ∀ k ∈ key, k < 256) (horig : ∀ b ∈ origin, b < 256) :
    b32encode a (xorCycle key origin) ≠ b32encode a origin ↔
      ∃ j, j < origin.length ∧ key.getD (j % key.length) 0 ≠ 0 := by
  have hmb : ∀ c ∈ xorCycle key origin, c < 256 := xorCycle_lt key origin hkeyB horig
  have hiff1 : b32encode a (xorCycle key origin) = b32encode a origin ↔
      xorCycle key origin = origin :=
    ⟨fun h => b32encode_inj a _ _ hmb horig h, fun h => by rw [h]⟩
  exact (not_congr hiff1).trans (xorCycle_ne_iff key origin hkey)

/-- Witness for C8: key `[7]`, origin `[104]` — the labels differ. -/
theorem c8_xor_mask_difference_witness :
    b32encode .Z (xorCycle [7] [104]) ≠ b32encode .Z [104] :=
  (c8_xor_mask_difference .Z [7] [104] (by decide) (by decide) (by decide)).2
    ⟨0, by decide, by decide⟩

/-! ### Shape of `encode_url` output (claim C9) -/

theorem parsePortDigits_natDigits (p : Nat) (hp : p ≤ 65535) :
    parsePortDigits (natDigits p) = some p := by
  unfold parsePortDigits
  rw [if_neg (by
    simp only [not_or, not_not]
    refine ⟨natDigits_ne_nil p, ?_⟩
    simp only [List.all_eq_true]
    intro c hc
    have := natDigits_bounds p c hc
    simp only [isDigitB]
    exact decide_eq_true (by omega))]
  dsimp only
  rw [foldl_natDigits, if_pos hp]

/-- The port part of an assembled URL. -/
def portBytes : Option Nat → Bytes
  | some p => 58 :: natDigits p
  | none => []

theorem portBytes_pred (port? : Option Nat) :
    ∀ c ∈ portBytes port?, (c = 58 ∨ (48 ≤ c ∧ c ≤ 57)) := by
  rcases port? with _ | p
  · intro c hc; simp [portBytes] at hc
  · intro c hc
    simp only [portBytes, List.mem_cons] at hc
    rcases hc with rfl | hc
    · left; rfl
    · right; exact natDigits_bounds p c hc

/-- `parseUri` on an assembled URL
`scheme://host[:port]/path[?query][#fragment]`. -/
theorem parseUri_build (sch host prest qf : Bytes) (port? : Option Nat)
    (c : Nat) (ct : Bytes) (hsch : sch = c :: ct) (hca : isAlphaB c = true)
    (hschAll : sch.all isSchemeByte = true)
    (hhost : host ≠ []) (hhostAll : host.all isHostByte = true)
    (hport : ∀ n, port? = some n → n ≤ 65535)
    (hprest : ∀ b ∈ prest, isPathByte b = true ∧ b ≠ 63 ∧ b ≠ 35)
    (hqfB : ∀ b ∈ qf, isPathByte b = true)
    (hqfH : qf = [] ∨ (∃ t, qf = 63 :: t) ∨ (∃ t, qf = 35 :: t)) :
    parseUri (sch ++ sepSS ++ (host ++ portBytes port? ++ (47 :: prest) ++ qf)) =
      some ⟨sch, host, port?, 47 :: prest⟩ := by
  have hsch58 : ∀ x ∈ sch, x ≠ 58 := by
    intro x hx
    exact (isSchemeByte_facts x (List.all_eq_true.1 hschAll x hx)).2.1
  have hhost58 : 58 ∉ host := (hostAll_facts host hhostAll).2.1
  have hsplit : splitOnce sepSS
      (sch ++ sepSS ++ (host ++ portBytes port? ++ (47 :: prest) ++ qf)) =
      some (sch, host ++ portBytes port? ++ (47 :: prest) ++ qf) := by
    rw [sepSS_cons]
    exact splitOnce_boundary 58 [47, 47] sch _ hsch58
  have hauthPred : ∀ x ∈ host ++ portBytes port?,
      (fun b => decide ¬ (b = 47 ∨ b = 63 ∨ b = 35)) x = true := by
    intro x hx
    rcases List.mem_append.1 hx with hx | hx
    · have hf := isHostByte_facts x (List.all_eq_true.1 hhostAll x hx)
      simp only [decide_eq_true_eq, not_or]
      exact ⟨hf.2.1, hf.2.2.2.1, hf.2.2.2.2.1⟩
    · have := portBytes_pred port? x hx
      simp only [decide_eq_true_eq, not_or]
      omega
  have hauth : (host ++ portBytes port? ++ (47 :: prest) ++ qf).takeWhile
      (fun b => ¬ (b = 47 ∨ b = 63 ∨ b = 35)) = host ++ portBytes port? := by
    rw [show host ++ portBytes port? ++ (47 :: prest) ++ qf =
      (host ++ portBytes port?) ++ (47 :: (prest ++ qf)) by simp [List.append_assoc]]
    rw [takeWhile_append_all _ _ hauthPred, List.takeWhile_cons, if_neg (by simp)]
    simp
  have hafter : (host ++ portBytes port? ++ (47 :: prest) ++ qf).drop
      (((host ++ portBytes port? ++ (47 :: prest) ++ qf).takeWhile
        (fun b => ¬ (b = 47 ∨ b = 63 ∨ b = 35))).length) = 47 :: (prest ++ qf) := by
    rw [hauth]
    rw [show host ++ portBytes port? ++ (47 :: prest) ++ qf =
      (host ++ portBytes port?) ++ (47 :: (prest ++ qf)) by simp [List.append_assoc]]
    exact List.drop_left _ _
  have htw : (prest ++ qf).takeWhile (fun b => ¬ (b = 63 ∨ b = 35)) = prest := by
    rw [takeWhile_append_all _ _ (by
      intro x hx
      have := (hprest x hx).2
      simp only [decide_eq_true_eq, not_or]
      omega)]
    rcases hqfH with rfl | ⟨t, rfl⟩ | ⟨t, rfl⟩
    · simp
    · rw [List.takeWhile_cons, if_neg (by simp)]
      simp
    · rw [List.takeWhile_cons, if_neg (by simp)]
      simp
  have htw2 : (47 :: (prest ++ qf)).takeWhile (fun b => ¬ (b = 63 ∨ b = 35)) =
      47 :: prest := by
    rw [List.takeWhile_cons, if_pos (by decide), htw]
  have hpathEq : pathOf (47 :: (prest ++ qf)) = 47 :: prest := by
    unfold pathOf
    rw [htw2, if_neg (by simp)]
  have hafterAll : ∀ x ∈ 47 :: (prest ++ qf), isPathByte x = true := by
    intro x hx
    simp only [List.mem_cons, List.mem_append] at hx
    rcases hx with rfl | hx | hx
    · decide
    · exact (hprest x hx).1
    · exact hqfB x hx
  unfold parseUri
  rw [hsplit]
  subst hsch
  dsimp only
  rw [if_neg (by simp [hca, hschAll])]
  rw [hafter]
  rw [if_neg (by
    simp only [not_not, List.all_eq_true]
    exact hafterAll)]
  rw [hauth, hpathEq]
  rcases port? with _ | p
  · rw [show portBytes none = [] from rfl, List.append_nil,
      splitOnce_hostonly host hhost58]
    rw [if_neg (by simp [hhost, hhostAll])]
    try rfl
  · rw [show portBytes (some p) = 58 :: natDigits p from rfl,
      splitOnce_hostport host (natDigits p) hhost58]
    show (if host = [] ∨ ¬ host.all isHostByte = true then none
      else match parsePortDigits (natDigits p) with
        | none => none
        | some n => some (⟨c :: ct, host, some n, 47 :: prest⟩ : UriParts)) =
      some ⟨c :: ct, host, some p, 47 :: prest⟩
    rw [if_neg (by simp [hhost, hhostAll]), parsePortDigits_natDigits p (hport p rfl)]

theorem originOf_build (sch host pth : Bytes) (port? : Option Nat) :
    originOf ⟨sch, host, port?, pth⟩ = sch ++ sepSS ++ host ++ portBytes port? := by
  cases port? <;> rfl

/-- **C9** Shape of `encode_url` output on a well-formed input
`scheme://host[:port]/path[?query][#fragment]` (any scheme, DNS host): the
result is exactly `https://` ++ base32(alphabet, payload) ++ `.` ++
`public_host` ++ path — where the payload is `scheme://host` with `:port`
appended iff the input carries an explicit port (under `Base32Xor` the
payload is additionally XOR-masked) — so the output scheme is always
`https` and the query string and fragment are dropped. -/
theorem c9_encode_url_shape (a : Alphabet) (key pub : Bytes)
    (sch host prest qf : Bytes) (port? : Option Nat) (c : Nat) (ct : Bytes)
    (hsch : sch = c :: ct) (hca : isAlphaB c = true)
    (hschAll : sch.all isSchemeByte = true)
    (hhost : host ≠ []) (hhostAll : host.all isHostByte = true)
    (hport : ∀ n, port? = some n → n ≤ 65535)
    (hprest : ∀ b ∈ prest, isPathByte b = true ∧ b ≠ 63 ∧ b ≠ 35)
    (hqfB : ∀ b ∈ qf, isPathByte b = true)
    (hqfH : qf = [] ∨ (∃ t, qf = 63 :: t) ∨ (∃ t, qf = 35 :: t)) :
    encode_url ⟨.Base32 a, pub⟩
        (sch ++ sepSS ++ (host ++ portBytes port? ++ (47 :: prest) ++ qf)) =
      httpsSS ++ b32encode a (sch ++ sepSS ++ host ++ portBytes port?) ++ [46] ++
        pub ++ (47 :: prest) ∧
    encode_url ⟨.Base32Xor a key, pub⟩
        (sch ++ sepSS ++ (host ++ portBytes port? ++ (47 :: prest) ++ qf)) =
      httpsSS ++ b32encode a (xorCycle key (sch ++ sepSS ++ host ++ portBytes port?)) ++
        [46] ++ pub ++ (47 :: prest) := by
  have hb := parseUri_build sch host prest qf port? c ct hsch hca hschAll hhost
    hhostAll hport hprest hqfB hqfH
  constructor
  · rw [encode_url_base32 a pub _ _ hb, originOf_build]
  · rw [encode_url_xor a key pub _ _ hb, originOf_build]

/-- Example scheme `ftp` (to exhibit that the output scheme is `https`
regardless of the input scheme). -/
def ftpSch : Bytes := ['f', 't', 'p'].map Char.toNat

/-- Witness for C9 at `ftp://example.com:21/a?b=1` with `public_host`
`px.test` and z-base-32: the query is dropped and the output scheme is
`https`. -/
theorem c9_encode_url_shape_witness :
    encode_url ⟨.Base32 .Z, pubEx⟩
        (ftpSch ++ sepSS ++ (hostEx ++ portBytes (some 21) ++ (47 :: [97]) ++
          (63 :: [98, 61, 49]))) =
      httpsSS ++ b32encode .Z (ftpSch ++ sepSS ++ hostEx ++ portBytes (some 21)) ++
        [46] ++ pubEx ++ (47 :: [97]) :=
  (c9_encode_url_shape .Z [7] pubEx ftpSch hostEx [97] (63 :: [98, 61, 49])
    (some 21) ('f'.toNat) (['t', 'p'].map Char.toNat) rfl (by decide) (by decide)
    (by decide) (by decide) (fun n hn => by cases hn; omega) (by decide) (by decide)
    (Or.inr (Or.inl ⟨[98, 61, 49], rfl⟩))).1

theorem proxied_origin_ok_no58 (cfg : Config) (hb : Bytes) (o : Origin)
    (hok : proxied_origin cfg hb = .ok o) : 58 ∉ o.host := by
  unfold proxied_origin at hok
  dsimp only at hok
  split at hok
  · exact absurd hok (by simp)
  · split at hok <;> split at hok <;> try split at hok
    all_goals
      first
        | exact absurd hok (by simp)
        | exact (parse_origin_shape _ o hok).2.1

/-- **C10** Upstream request contract: whenever the inbound `Host` header
decodes to an `Origin`, the upstream request URL is
`scheme://host:port` (the port always rendered explicitly — decoded or
scheme-default) followed by the inbound request URI, while the `Host`
header sent upstream is the origin host alone, which can carry no `:port`
suffix since a parsed host never contains a colon. -/
theorem c10_upstream_request (cfg : Config) (hb uri : Bytes) (o : Origin)
    (hok : proxied_origin cfg hb = .ok o) :
    upstreamUrl o uri =
      (schemeBytes o.scheme ++ sepSS ++ o.host ++ (58 :: natDigits o.port)) ++ uri ∧
    upstreamHostHeader o = o.host ∧
    58 ∉ upstreamHostHeader o := by
  refine ⟨?_, rfl, proxied_origin_ok_no58 cfg hb o hok⟩
  obtain ⟨sch, host, port⟩ := o
  cases sch <;> rfl

/-- Example inbound `Host` header: z-base-32 of `http://example.com`
followed by `.px.test` (no explicit port in the encoded origin, so the
decoded port is the scheme default 80). -/
def c10HostEx : Bytes := b32encode .Z (strHttp ++ sepSS ++ hostEx) ++ (46 :: pubEx)

/-- Witness for C10: the `Host` header `c10HostEx` decodes to origin
`http://example.com` with default port 80, and the upstream URL for
request URI `/` is `http://example.com:80/` — the port appears
explicitly though the encoded origin had none. -/
theorem c10_upstream_request_witness :
    proxied_origin ⟨.Base32 .Z, pubEx⟩ c10HostEx = .ok ⟨.Http, hostEx, 80⟩ ∧
    (upstreamUrl ⟨.Http, hostEx, 80⟩ [47] =
      (schemeBytes .Http ++ sepSS ++ hostEx ++ (58 :: natDigits 80)) ++ [47] ∧
    upstreamHostHeader ⟨.Http, hostEx, 80⟩ = hostEx ∧
    58 ∉ upstreamHostHeader (⟨.Http, hostEx, 80⟩ : Origin)) :=
  ⟨rfl,
   c10_upstream_request ⟨.Base32 .Z, pubEx⟩ c10HostEx [47] ⟨.Http, hostEx, 80⟩
     rfl⟩

/-- Counterexample to C4: the router is an exact byte-equality test, so a
`Host` of `API.px.test` (different case) or `api.px.test:3069` (explicit
port) is NOT routed to the control API. -/
theorem c4_case_and_port_sensitive :
    routeIsApi ⟨.Base32 .Z, pubEx⟩
      (['A', 'P', 'I', '.'].map Char.toNat ++ pubEx) = false ∧
    routeIsApi ⟨.Base32 .Z, pubEx⟩
      ((apiDot ++ pubEx) ++ [':', '3', '0', '6', '9'].map Char.toNat) = false := by
  decide

/-- **C4** (amended) Hostname router dispatch: for every configuration and
inbound `Host` header, the request is dispatched to the control API exactly
when the header equals `"api." ++ public_host` byte for byte — the
comparison is case-sensitive and does not ignore a `:port` suffix. -/
theorem c4_router_exact_equality (cfg : Config) (h : Bytes) :
    routeIsApi cfg h = true ↔ h = apiDot ++ cfg.public_host := by
  simp [routeIsApi]

theorem mem_respHeaderTransform (cfg : Config) (up ts : List Header)
    (h : respHeaderTransform cfg up = some ts) (nv : Header) :
    nv ∈ ts ↔ ∃ mv ∈ up, mv.1 ∉ strippedRespHeaders ∧
      nv = if mv.1 = locationName then (mv.1, encode_url cfg mv.2) else mv := by
  induction up generalizing ts with
  | nil =>
    simp only [respHeaderTransform, Option.some.injEq] at h
    subst h
    simp
  | cons mv rest ih =>
    unfold respHeaderTransform at h
    by_cases hs : mv.1 ∈ strippedRespHeaders
    · rw [if_pos hs] at h
      rw [ih ts h]
      constructor
      · rintro ⟨x, hx, hxs, hxe⟩
        exact ⟨x, List.mem_cons_of_mem mv hx, hxs, hxe⟩
      · rintro ⟨x, hx, hxs, hxe⟩
        rcases List.mem_cons.mp hx with heq | hx'
        · subst heq
          exact absurd hs hxs
        · exact ⟨x, hx', hxs, hxe⟩
    · rw [if_neg hs] at h
      by_cases hp : mv.1 = locationName ∧ ¬ mv.2.all isVisibleAscii = true
      · rw [if_pos hp] at h
        exact absurd h (by simp)
      · rw [if_neg hp] at h
        rcases hr : respHeaderTransform cfg rest with _ | ts'
        · rw [hr] at h
          exact absurd h (by simp)
        · rw [hr] at h
          simp only [Option.map_some', Option.some.injEq] at h
          subst h
          constructor
          · intro hmem
            rcases List.mem_cons.mp hmem with heq | hmem'
            · exact ⟨mv, List.mem_cons_self mv rest, hs, heq⟩
            · obtain ⟨x, hx, hxs, hxe⟩ := (ih ts' hr).mp hmem'
              exact ⟨x, List.mem_cons_of_mem mv hx, hxs, hxe⟩
          · rintro ⟨x, hx, hxs, hxe⟩
            rcases List.mem_cons.mp hx with heq | hx'
            · subst heq
              rw [hxe]
              exact List.mem_cons_self _ _
            · exact List.mem_cons_of_mem _ ((ih ts' hr).mpr ⟨x, hx', hxs, hxe⟩)

/-- Counterexample to C2: in the `text/html` body branch the forwarding
engine also removes `Content-Encoding` and `Transfer-Encoding`, which are
not among the 16 stripped names and are not `Location` — so not every other
upstream header is carried over. Here a `chunked` `Transfer-Encoding` on an
HTML response is absent downstream (the copy phase itself succeeds). -/
theorem c2_html_branch_drops_transfer_encoding :
    transferEncodingName ∉ strippedRespHeaders ∧
    transferEncodingName ≠ locationName ∧
    downstreamRespHeaders ⟨.Base32 .Z, pubEx⟩
        [(contentTypeName, textHtml),
         (transferEncodingName, ['c', 'h', 'u', 'n', 'k', 'e', 'd'].map Char.toNat)] =
      some [(contentTypeName, textHtml)] :=
  ⟨by decide, by decide, by decide⟩

/-- **C2** (amended) Downstream response header contract, on every upstream
response where the header-copy phase completes (it panics, producing no
response, exactly when a retained `Location` value has a byte outside what
`HeaderValue::to_str` accepts — printable ASCII, space, or tab): the status
code is copied; no stripped name appears downstream; every upstream header
whose name is neither stripped nor — when the response is HTML, i.e. a
`to_str`-legal `Content-Type` contains `text/html` — `Content-Encoding` or
`Transfer-Encoding` is carried over, with its value unchanged except
`Location`, whose value becomes `encode_url(config, value)`; and every
downstream header arises from an upstream one this way. -/
theorem c2_response_header_contract (cfg : Config) (status : Nat) (up ds : List Header)
    (hds : downstreamRespHeaders cfg up = some ds) :
    downstreamResp cfg status up = some (status, ds) ∧
    (∀ nv ∈ ds, nv.1 ∉ strippedRespHeaders) ∧
    (∀ nv ∈ up, nv.1 ∉ strippedRespHeaders →
      ¬ (isHtmlResp up = true ∧ (nv.1 = contentEncodingName ∨ nv.1 = transferEncodingName)) →
      (if nv.1 = locationName then (nv.1, encode_url cfg nv.2) else nv) ∈ ds) ∧
    (∀ nv ∈ ds, ∃ mv ∈ up, mv.1 ∉ strippedRespHeaders ∧
      nv = if mv.1 = locationName then (mv.1, encode_url cfg mv.2) else mv) := by
  obtain ⟨ts, hts, hdseq⟩ : ∃ ts, respHeaderTransform cfg up = some ts ∧
      ds = if isHtmlResp up then
        ts.filter fun nv => ¬ (nv.1 = contentEncodingName ∨ nv.1 = transferEncodingName)
      else ts := by
    unfold downstreamRespHeaders at hds
    rcases hr : respHeaderTransform cfg up with _ | ts
    · rw [hr] at hds
      exact absurd hds (by simp)
    · rw [hr] at hds
      simp only [Option.map_some', Option.some.injEq] at hds
      exact ⟨ts, rfl, hds.symm⟩
  have hsub : ∀ nv, nv ∈ ds → nv ∈ ts := by
    intro nv h
    rw [hdseq] at h
    by_cases hh : isHtmlResp up = true
    · rw [if_pos hh] at h
      exact (List.mem_filter.mp h).1
    · rw [if_neg hh] at h
      exact h
  refine ⟨?_, ?_, ?_, ?_⟩
  · unfold downstreamResp
    rw [hds]
    rfl
  · intro nv hnv
    obtain ⟨mv, _, hns, heq⟩ := (mem_respHeaderTransform cfg up ts hts nv).mp (hsub nv hnv)
    by_cases hl : mv.1 = locationName
    · rw [if_pos hl] at heq; rw [heq]; exact hns
    · rw [if_neg hl] at heq; rw [heq]; exact hns
  · intro nv hnv hns hnot
    have hmem : (if nv.1 = locationName then (nv.1, encode_url cfg nv.2) else nv) ∈ ts :=
      (mem_respHeaderTransform cfg up ts hts _).mpr ⟨nv, hnv, hns, rfl⟩
    rw [hdseq]
    by_cases hh : isHtmlResp up = true
    · rw [if_pos hh]
      refine List.mem_filter.mpr ⟨hmem, ?_⟩
      have h1 : (if nv.1 = locationName then (nv.1, encode_url cfg nv.2) else nv).1 = nv.1 := by
        by_cases hl : nv.1 = locationName
        · rw [if_pos hl]
        · rw [if_neg hl]
      simp only [h1, decide_eq_true_eq, decide_not, Bool.not_eq_true']
      rw [decide_eq_false_iff_not]
      intro hor
      exact hnot ⟨hh, hor⟩
    · rw [if_neg hh]
      exact hmem
  · intro nv hnv
    exact (mem_respHeaderTransform cfg up ts hts nv).mp (hsub nv hnv)

/-- Witness for C2 at the one-header HTML upstream response
`Content-Type: text/html`: the copy phase completes and the contract holds
of the computed downstream headers. -/
theorem c2_response_header_contract_witness :
    downstreamRespHeaders ⟨.Base32 .Z, pubEx⟩ [(contentTypeName, textHtml)] =
      some [(contentTypeName, textHtml)] ∧
    (downstreamResp ⟨.Base32 .Z, pubEx⟩ 200 [(contentTypeName, textHtml)] =
      some (200, [(contentTypeName, textHtml)]) ∧
    (∀ nv ∈ ([(contentTypeName, textHtml)] : List Header),
      nv.1 ∉ strippedRespHeaders) ∧
    (∀ nv ∈ ([(contentTypeName, textHtml)] : List Header),
      nv.1 ∉ strippedRespHeaders →
      ¬ (isHtmlResp [(contentTypeName, textHtml)] = true ∧
        (nv.1 = contentEncodingName ∨ nv.1 = transferEncodingName)) →
      (if nv.1 = locationName then (nv.1, encode_url ⟨.Base32 .Z, pubEx⟩ nv.2) else nv) ∈
        [(contentTypeName, textHtml)]) ∧
    (∀ nv ∈ ([(contentTypeName, textHtml)] : List Header),
      ∃ mv ∈ ([(contentTypeName, textHtml)] : List Header),
        mv.1 ∉ strippedRespHeaders ∧
        nv = if mv.1 = locationName then (mv.1, encode_url ⟨.Base32 .Z, pubEx⟩ mv.2)
          else mv)) :=
  ⟨by decide,
   c2_response_header_contract ⟨.Base32 .Z, pubEx⟩ 200 [(contentTypeName, textHtml)]
     [(contentTypeName, textHtml)] (by decide)⟩

/-- Whether a token opens or closes a `head` element. -/
def isHeadTok : HtmlTok → Bool
  | .startTag n _ => n == headName
  | .endTag n => n == headName
  | .text _ => false

theorem htmlRewriteGo_headfree (cfg : Config) (d : Nat) (ts rest : List HtmlTok)
    (h : ∀ t ∈ ts, isHeadTok t = false) :
    htmlRewriteGo cfg d (ts ++ rest) =
      ts.map (rewriteTok cfg) ++ htmlRewriteGo cfg d rest := by
  induction ts with
  | nil => rfl
  | cons t ts ih =>
    have ht := h t (List.mem_cons_self t ts)
    have hts : ∀ x ∈ ts, isHeadTok x = false := fun x hx => h x (List.mem_cons_of_mem t hx)
    cases t with
    | startTag n attrs =>
      have hn : ¬ n = headName := by simpa [isHeadTok] using ht
      simp only [List.cons_append, htmlRewriteGo, if_neg hn, List.map_cons, List.append_eq]
      rw [ih hts]
    | endTag n =>
      have hn : ¬ n = headName := by simpa [isHeadTok] using ht
      simp only [List.cons_append, htmlRewriteGo, if_neg hn, List.map_cons, rewriteTok,
        List.append_eq]
      rw [ih hts]
    | text s =>
      simp only [List.cons_append, htmlRewriteGo, List.map_cons, rewriteTok, List.append_eq]
      rw [ih hts]

/-- Counterexample to C3: `lol_html`'s `el.append` inserts content
immediately before the element's end tag — the script lands as the LAST
child of `<head>`, after any existing children, not as the first. Here
`<head>x</head>` rewrites with the script after the text `x`. -/
theorem c3_script_not_first_child :
    htmlRewrite ⟨.Base32 .Z, pubEx⟩
        [.startTag headName [], .text [120], .endTag headName] =
      [.startTag headName [], .text [120]] ++ scriptToks ++ [.endTag headName] ∧
    htmlRewrite ⟨.Base32 .Z, pubEx⟩
        [.startTag headName [], .text [120], .endTag headName] ≠
      [.startTag headName []] ++ scriptToks ++ [.text [120], .endTag headName] := by
  exact ⟨rfl, by decide⟩

/-- **C3** (amended) Patch-script delivery contract of the HTML rewriter:
on a stream with a `head` element (no nested `head` markup around or inside
it), the rewritten output carries the attribute-rewritten tokens, with the
injected `<script type="text/javascript">` patch-script element appended as
the LAST child of the `head` element — immediately before its matching end
tag, after all its other children; the rest of the stream is rewritten
independently (so each further `head` element receives its own copy). -/
theorem c3_script_appended_last (cfg : Config) (a : List (Bytes × Bytes))
    (pre mid post : List HtmlTok)
    (hpre : ∀ t ∈ pre, isHeadTok t = false)
    (hmid : ∀ t ∈ mid, isHeadTok t = false) :
    htmlRewrite cfg (pre ++ [.startTag headName a] ++ mid ++ [.endTag headName] ++ post) =
      pre.map (rewriteTok cfg) ++ [rewriteTok cfg (.startTag headName a)] ++
      mid.map (rewriteTok cfg) ++ scriptToks ++ [.endTag headName] ++
      htmlRewrite cfg post := by
  unfold htmlRewrite
  simp only [List.append_assoc]
  rw [htmlRewriteGo_headfree cfg 0 pre _ hpre]
  have step1 : htmlRewriteGo cfg 0
      ([HtmlTok.startTag headName a] ++ (mid ++ ([HtmlTok.endTag headName] ++ post))) =
      rewriteTok cfg (.startTag headName a) ::
        htmlRewriteGo cfg 1 (mid ++ ([HtmlTok.endTag headName] ++ post)) := by
    simp [htmlRewriteGo]
  rw [step1, htmlRewriteGo_headfree cfg 1 mid _ hmid]
  have step2 : htmlRewriteGo cfg 1 ([HtmlTok.endTag headName] ++ post) =
      scriptToks ++ ([HtmlTok.endTag headName] ++ htmlRewriteGo cfg 0 post) := by
    simp [htmlRewriteGo]
  rw [step2]
  simp [List.append_assoc]

/-- Witness for C3 on `<head>x</head>`: the script element is injected
between the text child and `</head>`. -/
theorem c3_script_appended_last_witness :
    htmlRewrite ⟨.Base32 .Z, pubEx⟩
        ([] ++ [.startTag headName []] ++ [HtmlTok.text [120]] ++ [.endTag headName] ++ []) =
      List.map (rewriteTok ⟨.Base32 .Z, pubEx⟩) [] ++
      [rewriteTok ⟨.Base32 .Z, pubEx⟩ (.startTag headName [])] ++
      List.map (rewriteTok ⟨.Base32 .Z, pubEx⟩) [HtmlTok.text [120]] ++ scriptToks ++
      [.endTag headName] ++ htmlRewrite ⟨.Base32 .Z, pubEx⟩ [] :=
  c3_script_appended_last ⟨.Base32 .Z, pubEx⟩ [] [] [HtmlTok.text [120]] []
    (by decide) (by decide)

end GS
